import Mathlib

/-!
Verification of the GF(2) constraint-solving core of a Simon-algorithm
post-processing program (simon_qiskit.py).

Measurement bitstrings are strings of the characters 0 and 1 in the source;
we embed a bitstring as a `List Bool` (index 0 = leftmost character, the
most significant bit).  Integer matrix entries in the source are always 0
or 1, produced by `int(ch)` and combined with bitwise xor, so a row is
likewise embedded as a `List Bool`.
-/

/-- A row / measurement vector: the bits of one n-bit string. -/
abbrev Row := List Bool

/-- GF(2) dot product of two bit rows: xor of the pointwise ands.
Mirrors sums of the form `rhs ^= (row[j] & s[j])` in the source. -/
def dotB : Row → Row → Bool
  | a :: as, b :: bs => Bool.xor (a && b) (dotB as bs)
  | _, _ => false

/-- Source `bits_to_int`: `x = (x << 1) | (int(b) & 1)` folded over the bits.
For a single 0/1 bit the shift-or is exactly `2 * x + bit`. -/
def bits_to_int (bits : List Bool) : Nat :=
  bits.foldl (fun x b => 2 * x + b.toNat) 0

/-- `A[i][j]` of the working matrix (out-of-range reads never occur on the
source paths we verify; they default to `false`). -/
def entry (A : List Row) (i j : Nat) : Bool := (A.getD i []).getD j false

/-- Source `A[row] ^= A[rank]`: pointwise xor of two equal-length rows. -/
def xorRow (a b : Row) : Row := List.zipWith Bool.xor a b

/-- Source `A[[pivot, rank]] = A[[rank, pivot]]`: swap two rows. -/
def swapRows (A : List Row) (i j : Nat) : List Row :=
  (A.set i (A.getD j [])).set j (A.getD i [])

/-- Source elimination inner loop:
`for row in range(rank+1, r): if A[row, col] == 1: A[row] ^= A[rank]`.
Rebuilding every index with a guard `rank < i` is the same update. -/
def elimBelow (A : List Row) (rank col : Nat) : List Row :=
  (List.range A.length).map (fun i =>
    if rank < i ∧ entry A i col then xorRow (A.getD i []) (A.getD rank [])
    else A.getD i [])

/-- Source pivot search:
`for row in range(rank, r): if A[row, col] == 1: pivot = row; break`. -/
def findPivot (A : List Row) (col rank r : Nat) : Option Nat :=
  (List.range' rank (r - rank)).find? (fun i => entry A i col)

/-- The forward-elimination column loop shared verbatim (up to the tracked
pivot-column list) by `solve_for_s_from_measurements` and
`check_linear_independence`:
for each column, find the first pivot row at or below `rank`, swap it into
place if needed, clear the column below it, record the pivot column,
advance `rank`, and break out of the loop as soon as `rank == r`. -/
def elimGo (r : Nat) (cols : List Nat) (A : List Row) (rank : Nat)
    (pivots : List Nat) : List Row × Nat × List Nat :=
  match cols with
  | [] => (A, rank, pivots)
  | col :: rest =>
    match findPivot A col rank r with
    | none => elimGo r rest A rank pivots
    | some p =>
      let A1 := if p = rank then A else swapRows A p rank
      let A2 := elimBelow A1 rank col
      let pv := pivots ++ [col]
      if rank + 1 = r then (A2, rank + 1, pv)
      else elimGo r rest A2 (rank + 1) pv

/-- Source `check_linear_independence(vectors, n)`: returns
`(rank >= n - 1, rank)` where the rank loop runs `for col in
range(min(n, r))` over the `r = len(vectors)` rows. -/
def check_linear_independence (vectors : List Row) (n : Nat) : Bool × Nat :=
  if vectors = [] then (false, 0)
  else
    let r := vectors.length
    let out := elimGo r (List.range (min n r)) vectors 0 []
    (decide (n - 1 ≤ out.2.1), out.2.1)

/-- The elimination performed inside `solve_for_s_from_measurements`:
same loop body as `check_linear_independence` but `for col in range(n)`,
additionally recording `pivot_cols`. -/
def solveElim (n : Nat) (rows : List Row) : List Row × Nat × List Nat :=
  elimGo rows.length (List.range n) rows 0 []

/-- One iteration of the back-substitution loop of
`solve_for_s_from_measurements`: find the pivot column of the row
(first j in range(n) with row[j] == 1; if none, continue), compute
`rhs = xor over j in range(pivot_col+1, n) of (row[j] & s[j])` and set
`s[pivot_col] = rhs`. -/
def backsubStep (n : Nat) (row : Row) (s : Row) : Row :=
  match (List.range n).find? (fun j => row.getD j false) with
  | none => s
  | some p =>
    let rhs := (List.range' (p + 1) (n - (p + 1))).foldl
      (fun acc j => Bool.xor acc (row.getD j false && s.getD j false)) false
    s.set p rhs

/-- Source `solve_for_s_from_measurements(n, measured_bitstrings)`.
`np.array` of no rows (or zero-width rows) has `A.size == 0`, giving
shape `(0, n)` and an immediate `None`.  Otherwise: forward elimination
over all n columns; `rank == n` gives the trivial answer 0; likewise an
empty free-column list; otherwise set the first free column of s to 1 and
back-substitute the pivot rows from bottom to top. -/
def solve_for_s_from_measurements (n : Nat) (rows : List Row) : Option Nat :=
  let r := if rows.length * (rows.headD []).length = 0 then 0 else rows.length
  if r = 0 then none
  else
    let out := elimGo r (List.range n) rows 0 []
    let A := out.1
    let rank := out.2.1
    let pivot_cols := out.2.2
    if rank = n then some 0
    else
      let free_cols := (List.range n).filter (fun c => decide (c ∉ pivot_cols))
      match free_cols with
      | [] => some 0
      | fc :: _ =>
        let s0 := (List.replicate n false).set fc true
        let s1 := ((List.range rank).reverse).foldl
          (fun s i => backsubStep n (A.getD i []) s) s0
        some (bits_to_int s1)

/-- Source `useful_measurements = [m for m in measured_bitstrings if m != '0'*n]`:
strip the all-zero strings, keeping order and multiplicity. -/
def useful_measurements (n : Nat) (ms : List Row) : List Row :=
  ms.filter (fun m => decide (m ≠ List.replicate n false))

/-- The failure/success strings returned by `solve_for_s_enhanced`:
"No measurements", "All measurements uninformative (y=0...0)",
"Insufficient independent vectors (rank=.., need ..)" (carrying the two
numbers interpolated into the source string), and "Success". -/
inductive SolveStatus where
  | noMeasurements : SolveStatus
  | allUninformative : SolveStatus
  | insufficient (rank needed : Nat) : SolveStatus
  | success : SolveStatus
deriving DecidableEq

/-- Source `solve_for_s_enhanced(n, measured_bitstrings)` (the `verbose`
printing has no effect on the returned value and is dropped). -/
def solve_for_s_enhanced (n : Nat) (ms : List Row) : Option Nat × SolveStatus :=
  if ms = [] then (none, SolveStatus.noMeasurements)
  else
    let useful := useful_measurements n ms
    if useful = [] then (none, SolveStatus.allUninformative)
    else
      let chk := check_linear_independence useful n
      if !chk.1 && decide (chk.2 < n - 1) then
        (none, SolveStatus.insufficient chk.2 (n - 1))
      else
        (solve_for_s_from_measurements n useful, SolveStatus.success)

/-- The retry loop of `run_test_case`.  Obtaining a measurement batch
(`run_simon` on the Aer simulator, the random `add_measurement_noise`
corruption, the bit-order reversal of the counts keys and the optional
`limit_measurements` truncation) is external, effectful collaborator code;
following section 6 of the design it is modelled as an opaque `oracle`
giving the `measured` list of attempt `attempt`.  Everything after that
point in the loop body is embedded exactly; printing is dropped.  The
second component counts loop iterations begun, so that the exhaustion
behaviour is statable. -/
def runTestAux (oracle : Nat → List Row) (n s_int : Nat) (add_noise : Bool)
    (max_retries : Nat) : (fuel attempt : Nat) → Bool × Nat
  | 0, attempt => (false, attempt)
  | fuel + 1, attempt =>
    let out := solve_for_s_enhanced n (oracle attempt)
    match out.1 with
    | some v =>
      if v = s_int then (true, attempt + 1)
      else if add_noise then
        runTestAux oracle n s_int add_noise max_retries fuel (attempt + 1)
      else (false, attempt + 1)
    | none =>
      if attempt < max_retries - 1 then
        runTestAux oracle n s_int add_noise max_retries fuel (attempt + 1)
      else (false, attempt + 1)

/-- Source `run_test_case`: `for attempt in range(max_retries)` with the
body of `runTestAux`; falling off the end of the loop returns False. -/
def run_test_case (oracle : Nat → List Row) (n s_int : Nat) (add_noise : Bool)
    (max_retries : Nat) : Bool × Nat :=
  runTestAux oracle n s_int add_noise max_retries max_retries 0

/-- The mutable loop state of `build_simon_function`: the `seen` array,
the `mapping` dict (an association list: every key is inserted at most
once, so insertion order lookup agrees with the dict) and `next_output`. -/
structure SimonState where
  seen : List Bool
  mapping : List (Nat × Nat)
  next_output : Nat

/-- One iteration `x` of the loop of `build_simon_function`: skip if seen;
otherwise pair `x` with `y = x ^ s_int`, assigning both the fresh label
`next_output` (a singleton when `y == x`, i.e. s = 0). -/
def simonStep (s_int : Nat) (st : SimonState) (x : Nat) : SimonState :=
  if st.seen.getD x false then st
  else
    let y := x ^^^ s_int
    if y = x then
      { seen := st.seen.set x true
        mapping := st.mapping ++ [(x, st.next_output)]
        next_output := st.next_output + 1 }
    else
      { seen := (st.seen.set x true).set y true
        mapping := st.mapping ++ [(x, st.next_output), (y, st.next_output)]
        next_output := st.next_output + 1 }

/-- Source `build_simon_function(n, s_int)`: `N = 1 << n = 2^n`; iterate
`simonStep` over `x in range(N)` and return the mapping.  (The source also
computes `s_bits = int_to_bits(s_int, n)` into an unused local, omitted.) -/
def build_simon_function (n s_int : Nat) : List (Nat × Nat) :=
  ((List.range (2 ^ n)).foldl (simonStep s_int)
    { seen := List.replicate (2 ^ n) false, mapping := [], next_output := 0 }).mapping

/-- Number of pair representatives (inputs `z` with `z <= z ^ s`) below `t`:
the closed form of the label counter of `build_simon_function`. -/
def repCount (s t : Nat) : Nat :=
  ((List.range t).filter (fun z => decide (z ≤ z ^^^ s))).length

/-- The loop state of `build_simon_function` after the iterations
`x = 0, ..., t-1`; `build_simon_function n s` is the mapping of
`simonLoop n s (2^n)` by definition. -/
def simonLoop (n s t : Nat) : SimonState :=
  (List.range t).foldl (simonStep s)
    { seen := List.replicate (2 ^ n) false, mapping := [], next_output := 0 }

/-- A row as a vector over GF(2), for rank reasoning. -/
def rowVec (n : Nat) (row : Row) : Fin n → ZMod 2 :=
  fun j => if row.getD j false then 1 else 0

/-- The set of row vectors of a matrix. -/
def rowSet (n : Nat) (A : List Row) : Set (Fin n → ZMod 2) :=
  {v | ∃ row ∈ A, v = rowVec n row}

/-- The GF(2) row space of a matrix. -/
def rowSpan (n : Nat) (A : List Row) : Submodule (ZMod 2) (Fin n → ZMod 2) :=
  Submodule.span (ZMod 2) (rowSet n A)

/-- Zero out all coordinates at or beyond column `m` (a linear map):
restriction of a row to the columns actually scanned by an elimination. -/
def truncMap (n m : Nat) : (Fin n → ZMod 2) →ₗ[ZMod 2] (Fin n → ZMod 2) where
  toFun v := fun j => if (j : Nat) < m then v j else 0
  map_add' x y := by funext j; by_cases h : (j : Nat) < m <;> simp [h]
  map_smul' c x := by funext j; by_cases h : (j : Nat) < m <;> simp [h]

/-- Loop invariant of the forward elimination `elimGo` when the columns
`0..c-1` have been processed on an `r`-row matrix of width-`n` rows:
the first `rank` rows are in echelon form with the strictly increasing
pivot columns `pivots` (all below `c`), and every row at or below `rank`
is zero in all processed columns. -/
structure ElimInv (n r c : Nat) (A : List Row) (rank : Nat)
    (pivots : List Nat) : Prop where
  len : A.length = r
  rowlen : ∀ row ∈ A, row.length = n
  rank_le : rank ≤ r
  piv_len : pivots.length = rank
  piv_lt : ∀ p ∈ pivots, p < c
  piv_mono : pivots.Pairwise (· < ·)
  echelon : ∀ i, i < rank →
    entry A i (pivots.getD i 0) = true ∧ ∀ j < pivots.getD i 0, entry A i j = false
  zblock : ∀ i, rank ≤ i → i < r → ∀ j < c, entry A i j = false

/-- The whole back-substitution loop of `solve_for_s_from_measurements`,
processing rows `t-1, ..., 0` of the echelon matrix `A` (the solver runs it
with `t = rank`): definitionally the fold appearing in the solver. -/
def backsubAux (n : Nat) (A : List Row) (t : Nat) (s : Row) : Row :=
  ((List.range t).reverse).foldl (fun s i => backsubStep n (A.getD i []) s) s

/-- Everything the elimination loop guarantees once the columns up to `c`
have been processed, starting from matrix `A0` and pivot list `pivots0`:
the invariant holds of the final state, orthogonality to the final rows
pulls back to the starting rows, the row space is preserved, and the final
pivot list extends the starting one. -/
def ElimPost (n r c : Nat) (A0 : List Row) (pivots0 : List Nat)
    (out : List Row × Nat × List Nat) : Prop :=
  ElimInv n r c out.1 out.2.1 out.2.2 ∧
  (∀ s, (∀ row ∈ out.1, dotB row s = false) → ∀ row ∈ A0, dotB row s = false) ∧
  rowSpan n out.1 = rowSpan n A0 ∧
  ∃ extra, out.2.2 = pivots0 ++ extra

/-! ### Generic list helpers -/

theorem getD_set_self {α : Type} (l : List α) (i : Nat) (v d : α)
    (h : i < l.length) : (l.set i v).getD i d = v := by
  simp [List.getD_eq_getElem?_getD, List.getElem?_set_self, h]

theorem getD_set_ne {α : Type} (l : List α) (i j : Nat) (v d : α)
    (h : i ≠ j) : (l.set i v).getD j d = l.getD j d := by
  simp [List.getD_eq_getElem?_getD, List.getElem?_set_ne h]

theorem getD_replicate_self {α : Type} (n j : Nat) (b : α) :
    (List.replicate n b).getD j b = b := by
  rcases Nat.lt_or_ge j n with h | h
  · simp [List.getD_eq_getElem?_getD, List.getElem?_eq_getElem, h]
  · simp [List.getD_eq_default, h]

theorem getD_mem {α : Type} (l : List α) (i : Nat) (d : α) (h : i < l.length) :
    l.getD i d ∈ l := by
  have : l.getD i d = l[i] := by
    simp [List.getD_eq_getElem?_getD, List.getElem?_eq_getElem h]
  rw [this]; exact List.getElem_mem h

theorem mem_iff_getD {α : Type} (l : List α) (d a : α) :
    a ∈ l ↔ ∃ i, i < l.length ∧ l.getD i d = a := by
  constructor
  · intro h
    obtain ⟨i, hi, he⟩ := List.mem_iff_getElem.mp h
    exact ⟨i, hi, by simp [List.getD_eq_getElem?_getD, List.getElem?_eq_getElem hi, he]⟩
  · rintro ⟨i, hi, rfl⟩
    exact getD_mem l i d hi

theorem drop_set_of_lt {α : Type} :
    ∀ (l : List α) (p q : Nat) (v : α), p < q → (l.set p v).drop q = l.drop q := by
  intro l
  induction l with
  | nil => intro p q v _; simp
  | cons a t ih =>
    intro p q v hpq
    match p, q with
    | 0, q + 1 => simp
    | p + 1, q + 1 =>
      simp only [List.set_cons_succ, List.drop_succ_cons]
      exact ih p q v (Nat.lt_of_succ_lt_succ hpq)

theorem find?_range'_some {f : Nat → Bool} :
    ∀ {k s p : Nat}, (List.range' s k).find? f = some p →
      s ≤ p ∧ p < s + k ∧ f p = true ∧ ∀ q, s ≤ q → q < p → f q = false := by
  intro k
  induction k with
  | zero => intro s p h; simp [List.range'] at h
  | succ k ih =>
    intro s p h
    rw [List.range'_succ] at h
    by_cases hs : f s = true
    · rw [List.find?_cons_of_pos _ hs] at h
      obtain rfl : s = p := by simpa using h
      exact ⟨Nat.le_refl _, by omega, hs, fun q h1 h2 => by omega⟩
    · rw [List.find?_cons_of_neg _ hs] at h
      obtain ⟨h1, h2, h3, h4⟩ := ih h
      refine ⟨by omega, by omega, h3, fun q hq1 hq2 => ?_⟩
      rcases Nat.eq_or_lt_of_le hq1 with rfl | hlt
      · simpa using hs
      · exact h4 q hlt hq2

theorem find?_range'_none {f : Nat → Bool} :
    ∀ {k s : Nat}, (List.range' s k).find? f = none →
      ∀ q, s ≤ q → q < s + k → f q = false := by
  intro k
  induction k with
  | zero => intro s _ q h1 h2; omega
  | succ k ih =>
    intro s h q h1 h2
    rw [List.range'_succ] at h
    by_cases hs : f s = true
    · rw [List.find?_cons_of_pos _ hs] at h; exact absurd h (by simp)
    · rw [List.find?_cons_of_neg _ hs] at h
      rcases Nat.eq_or_lt_of_le h1 with rfl | hlt
      · simpa using hs
      · exact ih h q hlt (by omega)

theorem find?_range'_of {f : Nat → Bool} :
    ∀ {k s p : Nat}, s ≤ p → p < s + k → f p = true →
      (∀ q, s ≤ q → q < p → f q = false) → (List.range' s k).find? f = some p := by
  intro k
  induction k with
  | zero => intro s p h1 h2; omega
  | succ k ih =>
    intro s p h1 h2 h3 h4
    rw [List.range'_succ]
    rcases Nat.eq_or_lt_of_le h1 with rfl | hlt
    · rw [List.find?_cons_of_pos _ h3]
    · rw [List.find?_cons_of_neg _ (by simp [h4 s (Nat.le_refl s) hlt])]
      exact ih hlt (by omega) h3 fun q hq1 hq2 => h4 q (by omega) hq2

theorem foldl_xor_acc (g : Nat → Bool) :
    ∀ (l : List Nat) (a : Bool),
      l.foldl (fun acc j => Bool.xor acc (g j)) a
        = Bool.xor a (l.foldl (fun acc j => Bool.xor acc (g j)) false) := by
  intro l
  induction l with
  | nil => intro a; simp
  | cons x xs ih =>
    intro a
    simp only [List.foldl_cons]
    rw [ih (Bool.xor a (g x)), ih (Bool.xor false (g x))]
    cases a <;> cases g x <;> simp

/-! ### Facts about the GF(2) dot product and row operations -/

theorem dotB_nil_right (a : Row) : dotB a [] = false := by
  cases a <;> rfl

theorem dotB_all_false : ∀ (row s : Row), (∀ b ∈ row, b = false) → dotB row s = false := by
  intro row
  induction row with
  | nil => intro s _; rfl
  | cons a as ih =>
    intro s h
    cases s with
    | nil => rfl
    | cons b bs =>
      have ha : a = false := h a (by simp)
      simp only [dotB, ha, Bool.false_and, ih bs fun x hx => h x (by simp [hx]),
        Bool.xor_false]

theorem dotB_congr : ∀ (row s1 s2 : Row), s1.length = s2.length →
    (∀ j, row.getD j false = true → s1.getD j false = s2.getD j false) →
    dotB row s1 = dotB row s2 := by
  intro row
  induction row with
  | nil => intro s1 s2 _ _; cases s1 <;> cases s2 <;> rfl
  | cons a as ih =>
    intro s1 s2 hlen h
    cases s1 with
    | nil => cases s2 with
      | nil => rfl
      | cons y ys => simp at hlen
    | cons x xs =>
      cases s2 with
      | nil => simp at hlen
      | cons y ys =>
        simp only [dotB]
        have htail : dotB as xs = dotB as ys := by
          refine ih xs ys (by simpa using hlen) fun j hj => ?_
          exact h (j + 1) (by simpa using hj)
        cases ha : a with
        | false => simp [htail]
        | true =>
          have : x = y := by simpa using h 0 (by simp [ha])
          simp [this, htail]

theorem dotB_xorRow : ∀ (a b s : Row), a.length = b.length →
    dotB (xorRow a b) s = Bool.xor (dotB a s) (dotB b s) := by
  intro a
  induction a with
  | nil =>
    intro b s h
    obtain rfl : b = [] := by cases b <;> simp_all
    cases s <;> rfl
  | cons x xs ih =>
    intro b s h
    cases b with
    | nil => simp at h
    | cons y ys =>
      cases s with
      | nil => simp [dotB_nil_right, xorRow]
      | cons u us =>
        simp only [xorRow, List.zipWith_cons_cons, dotB]
        have := ih ys us (by simpa using h)
        rw [show List.zipWith Bool.xor xs ys = xorRow xs ys from rfl, this]
        generalize dotB xs us = A
        generalize dotB ys us = B
        cases x <;> cases y <;> cases u <;> cases A <;> cases B <;> rfl

theorem xorRow_length (a b : Row) : (xorRow a b).length = min a.length b.length :=
  List.length_zipWith ..

theorem xorRow_getD : ∀ (a b : Row) (j : Nat), j < a.length → j < b.length →
    (xorRow a b).getD j false = Bool.xor (a.getD j false) (b.getD j false) := by
  intro a
  induction a with
  | nil => intro b j h; simp at h
  | cons x xs ih =>
    intro b j hja hjb
    cases b with
    | nil => simp at hjb
    | cons y ys =>
      cases j with
      | zero => rfl
      | succ j =>
        simpa [xorRow] using ih ys j (by simpa using hja) (by simpa using hjb)

theorem xorRow_cancel : ∀ (a b : Row), a.length = b.length →
    xorRow (xorRow a b) b = a := by
  intro a
  induction a with
  | nil =>
    intro b h
    obtain rfl : b = [] := by cases b <;> simp_all
    rfl
  | cons x xs ih =>
    intro b h
    cases b with
    | nil => simp at h
    | cons y ys =>
      simp only [xorRow, List.zipWith_cons_cons]
      refine congrArg₂ List.cons ?_ (ih ys (by simpa using h))
      cases x <;> cases y <;> rfl

/-! ### Step-level facts about the elimination primitives -/

theorem swapRows_len (A : List Row) (i j : Nat) :
    (swapRows A i j).length = A.length := by
  simp [swapRows]

theorem getD_swapRows (A : List Row) (i j k : Nat)
    (hi : i < A.length) (hj : j < A.length) :
    (swapRows A i j).getD k [] =
      if k = j then A.getD i [] else if k = i then A.getD j [] else A.getD k [] := by
  unfold swapRows
  by_cases hkj : k = j
  · subst hkj
    rw [getD_set_self _ _ _ _ (by simpa using hj)]
    simp
  · rw [getD_set_ne _ _ _ _ _ (Ne.symm hkj)]
    by_cases hki : k = i
    · subst hki
      rw [getD_set_self _ _ _ _ hi]
      simp [hkj]
    · rw [getD_set_ne _ _ _ _ _ (Ne.symm hki)]
      simp [hkj, hki]

/-- The combined description of `if p = rank then A else swapRows A p rank`. -/
theorem getD_swapState (A : List Row) (p rank k : Nat)
    (hp : p < A.length) (hr : rank < A.length) :
    (if p = rank then A else swapRows A p rank).getD k [] =
      if k = rank then A.getD p []
      else if k = p then A.getD rank [] else A.getD k [] := by
  by_cases hpr : p = rank
  · subst hpr
    simp only [if_pos rfl]
    by_cases hk : k = p <;> simp [hk]
  · rw [if_neg hpr, getD_swapRows A p rank k hp hr]

theorem swapState_len (A : List Row) (p rank : Nat) :
    (if p = rank then A else swapRows A p rank).length = A.length := by
  by_cases hpr : p = rank <;> simp [hpr, swapRows_len]

theorem elimBelow_len (A : List Row) (rank col : Nat) :
    (elimBelow A rank col).length = A.length := by
  simp [elimBelow]

theorem getD_elimBelow (A : List Row) (rank col k : Nat) (hk : k < A.length) :
    (elimBelow A rank col).getD k [] =
      if rank < k ∧ entry A k col then xorRow (A.getD k []) (A.getD rank [])
      else A.getD k [] := by
  unfold elimBelow
  have hlen : k < ((List.range A.length).map (fun i =>
      if rank < i ∧ entry A i col then xorRow (A.getD i []) (A.getD rank [])
      else A.getD i [])).length := by simpa using hk
  rw [List.getD_eq_getElem?_getD, List.getElem?_eq_getElem hlen]
  simp

theorem findPivot_some (A : List Row) (col rank r p : Nat)
    (h : findPivot A col rank r = some p) :
    rank ≤ p ∧ p < r ∧ entry A p col = true ∧
      ∀ q, rank ≤ q → q < p → entry A q col = false := by
  unfold findPivot at h
  obtain ⟨h1, h2, h3, h4⟩ := find?_range'_some h
  have hr : rank ≤ r := by
    by_contra hc
    have : r - rank = 0 := by omega
    rw [this] at h2
    omega
  exact ⟨h1, by omega, h3, h4⟩

theorem findPivot_none (A : List Row) (col rank r : Nat)
    (h : findPivot A col rank r = none) :
    ∀ q, rank ≤ q → q < r → entry A q col = false := by
  unfold findPivot at h
  intro q h1 h2
  exact find?_range'_none h q h1 (by omega)

/-! ### The pivot step preserves the elimination invariant -/

theorem swapState_mem_iff (A : List Row) (p rank : Nat)
    (hp : p < A.length) (hr : rank < A.length) (row : Row) :
    row ∈ (if p = rank then A else swapRows A p rank) ↔ row ∈ A := by
  have len1 : (if p = rank then A else swapRows A p rank).length = A.length :=
    swapState_len A p rank
  have g1 : ∀ k, (if p = rank then A else swapRows A p rank).getD k [] =
      if k = rank then A.getD p []
      else if k = p then A.getD rank [] else A.getD k [] :=
    fun k => getD_swapState A p rank k hp hr
  constructor
  · intro h
    obtain ⟨k, hk, he⟩ := (mem_iff_getD _ [] row).mp h
    rw [len1] at hk
    rw [g1 k] at he
    split_ifs at he
    · exact he ▸ getD_mem A p [] hp
    · exact he ▸ getD_mem A rank [] hr
    · exact he ▸ getD_mem A k [] hk
  · intro h
    obtain ⟨k, hk, he⟩ := (mem_iff_getD _ [] row).mp h
    by_cases hkp : k = p
    · have h2 : (if p = rank then A else swapRows A p rank).getD rank [] = row := by
        rw [g1 rank, if_pos rfl, ← hkp, he]
      exact h2 ▸ getD_mem _ rank [] (by rw [len1]; exact hr)
    · by_cases hkr : k = rank
      · have h2 : (if p = rank then A else swapRows A p rank).getD p [] = row := by
          rw [g1 p]
          by_cases h1 : p = rank
          · rw [if_pos h1, ← he, hkr, h1]
          · rw [if_neg h1, if_pos rfl, ← he, hkr]
        exact h2 ▸ getD_mem _ p [] (by rw [len1]; exact hp)
      · have h2 : (if p = rank then A else swapRows A p rank).getD k [] = row := by
          rw [g1 k, if_neg hkr, if_neg hkp, he]
        exact h2 ▸ getD_mem _ k [] (by rw [len1]; exact hk)

theorem rowVec_xorRow (n : Nat) (a b : Row) (ha : a.length = n) (hb : b.length = n) :
    rowVec n (xorRow a b) = rowVec n a + rowVec n b := by
  funext j
  have hja : (j : Nat) < a.length := by rw [ha]; exact j.isLt
  have hjb : (j : Nat) < b.length := by rw [hb]; exact j.isLt
  show (if (xorRow a b).getD j false then (1 : ZMod 2) else 0) =
    (if a.getD j false then (1 : ZMod 2) else 0) + (if b.getD j false then 1 else 0)
  rw [xorRow_getD a b j hja hjb]
  cases a.getD j false <;> cases b.getD j false <;> simp <;> decide

theorem elim_step_inv (n r c : Nat) (A : List Row) (rank : Nat)
    (pivots : List Nat) (p : Nat) (inv : ElimInv n r c A rank pivots)
    (hc : c < n) (hfp : findPivot A c rank r = some p) :
    ElimInv n r (c + 1)
      (elimBelow (if p = rank then A else swapRows A p rank) rank c)
      (rank + 1) (pivots ++ [c]) := by
  obtain ⟨hple, hpr, hApc, hbef⟩ := findPivot_some A c rank r p hfp
  have hrankr : rank < r := Nat.lt_of_le_of_lt hple hpr
  have hlenA : A.length = r := inv.len
  have hpA : p < A.length := by omega
  have hrA : rank < A.length := by omega
  set A1 := if p = rank then A else swapRows A p rank with hA1def
  have len1 : A1.length = A.length := swapState_len A p rank
  have g1 : ∀ k, A1.getD k [] =
      if k = rank then A.getD p []
      else if k = p then A.getD rank [] else A.getD k [] :=
    fun k => getD_swapState A p rank k hpA hrA
  have mem1 : ∀ row ∈ A1, row ∈ A := fun row h =>
    (swapState_mem_iff A p rank hpA hrA row).mp h
  have rowlen1 : ∀ row ∈ A1, row.length = n := fun row h => inv.rowlen row (mem1 row h)
  have getlen1 : ∀ k, k < r → (A1.getD k []).length = n := fun k hk =>
    rowlen1 _ (getD_mem A1 k [] (by omega))
  have e1low : ∀ i, i < rank → A1.getD i [] = A.getD i [] := by
    intro i h
    rw [g1 i, if_neg (by omega), if_neg (by omega)]
  have e1rank : A1.getD rank [] = A.getD p [] := by rw [g1 rank]; simp
  have e1zb : ∀ i, rank ≤ i → i < r → ∀ j, j < c → entry A1 i j = false := by
    intro i hi hir j hj
    show (A1.getD i []).getD j false = false
    rw [g1 i]
    split_ifs with h1 h2
    · exact inv.zblock p hple hpr j hj
    · exact inv.zblock rank (Nat.le_refl rank) hrankr j hj
    · exact inv.zblock i hi hir j hj
  set A2 := elimBelow A1 rank c with hA2def
  have len2 : A2.length = r := by rw [hA2def, elimBelow_len, len1, hlenA]
  have g2 : ∀ k, k < r → A2.getD k [] =
      if rank < k ∧ entry A1 k c then xorRow (A1.getD k []) (A1.getD rank [])
      else A1.getD k [] :=
    fun k hk => getD_elimBelow A1 rank c k (by omega)
  have getlen2 : ∀ k, k < r → (A2.getD k []).length = n := by
    intro k hk
    rw [g2 k hk]
    split_ifs with h
    · rw [xorRow_length, getlen1 k hk, getlen1 rank hrankr]; omega
    · exact getlen1 k hk
  have rowlen2 : ∀ row ∈ A2, row.length = n := by
    intro row hrow
    obtain ⟨k, hk, he⟩ := (mem_iff_getD A2 [] row).mp hrow
    rw [len2] at hk
    exact he ▸ getlen2 k hk
  have low2 : ∀ k, k ≤ rank → A2.getD k [] = A1.getD k [] := by
    intro k hk
    rw [g2 k (by omega), if_neg]
    rintro ⟨h1, -⟩
    omega
  have e2rankc : entry A2 rank c = true := by
    show (A2.getD rank []).getD c false = true
    rw [low2 rank (Nat.le_refl rank), e1rank]
    exact hApc
  refine ⟨len2, rowlen2, by omega, by simp [inv.piv_len], ?_, ?_, ?_, ?_⟩
  · intro q hq
    rcases List.mem_append.mp hq with h | h
    · exact Nat.lt_succ_of_lt (inv.piv_lt q h)
    · simp at h
      omega
  · refine List.pairwise_append.mpr ⟨inv.piv_mono, List.pairwise_singleton _ _, ?_⟩
    intro a ha b hb
    simp at hb
    exact hb ▸ inv.piv_lt a ha
  · -- echelon
    intro i hi
    rcases Nat.lt_or_ge i rank with hilt | hige
    · have hpv : (pivots ++ [c]).getD i 0 = pivots.getD i 0 :=
        List.getD_append _ _ 0 i (by rw [inv.piv_len]; exact hilt)
      have hrow : A2.getD i [] = A.getD i [] := by
        rw [low2 i (Nat.le_of_lt hilt), e1low i hilt]
      have := inv.echelon i hilt
      constructor
      · show (A2.getD i []).getD _ false = true
        rw [hrow, hpv]
        exact this.1
      · intro j hj
        rw [hpv] at hj
        show (A2.getD i []).getD j false = false
        rw [hrow]
        exact this.2 j hj
    · have hieq : i = rank := by omega
      subst hieq
      have hpv : (pivots ++ [c]).getD i 0 = c := by
        rw [List.getD_append_right _ _ 0 i (by rw [inv.piv_len])]
        simp [inv.piv_len]
      rw [hpv]
      refine ⟨e2rankc, ?_⟩
      intro j hj
      show (A2.getD i []).getD j false = false
      rw [low2 i (Nat.le_refl i), e1rank]
      exact inv.zblock p hple hpr j hj
  · -- zblock
    intro i hi hir j hj
    show (A2.getD i []).getD j false = false
    rw [g2 i hir]
    split_ifs with hcond
    · rw [xorRow_getD _ _ j (by rw [getlen1 i hir]; omega)
        (by rw [getlen1 rank hrankr]; omega)]
      rcases Nat.lt_or_ge j c with hjc | hjc
      · have h1 : entry A1 i j = false := e1zb i (by omega) hir j hjc
        have h2 : entry A1 rank j = false := e1zb rank (Nat.le_refl rank) hrankr j hjc
        show Bool.xor ((A1.getD i []).getD j false) ((A1.getD rank []).getD j false) = false
        rw [show (A1.getD i []).getD j false = entry A1 i j from rfl, h1,
          show (A1.getD rank []).getD j false = entry A1 rank j from rfl, h2]
        rfl
      · have hjc' : j = c := by omega
        subst hjc'
        have h1 : entry A1 i j = true := hcond.2
        have h2 : (A1.getD rank []).getD j false = true := by
          rw [e1rank]; exact hApc
        show Bool.xor ((A1.getD i []).getD j false) ((A1.getD rank []).getD j false) = false
        rw [show (A1.getD i []).getD j false = entry A1 i j from rfl, h1, h2]
        rfl
    · rcases Nat.lt_or_ge j c with hjc | hjc
      · exact e1zb i (by omega) hir j hjc
      · have hjc' : j = c := by omega
        subst hjc'
        have hfalse : entry A1 i j = false := by
          cases hE : entry A1 i j
          · rfl
          · exact absurd ⟨by omega, hE⟩ hcond
        exact hfalse

theorem elim_step_orth (n r c : Nat) (A : List Row) (rank : Nat)
    (pivots : List Nat) (p : Nat) (inv : ElimInv n r c A rank pivots)
    (hfp : findPivot A c rank r = some p) (s : Row)
    (horth : ∀ row ∈ elimBelow (if p = rank then A else swapRows A p rank) rank c,
      dotB row s = false) :
    ∀ row ∈ A, dotB row s = false := by
  obtain ⟨hple, hpr, hApc, hbef⟩ := findPivot_some A c rank r p hfp
  have hrankr : rank < r := Nat.lt_of_le_of_lt hple hpr
  have hlenA : A.length = r := inv.len
  have hpA : p < A.length := by omega
  have hrA : rank < A.length := by omega
  set A1 := if p = rank then A else swapRows A p rank with hA1def
  have len1 : A1.length = A.length := swapState_len A p rank
  have mem1 : ∀ row, row ∈ A1 ↔ row ∈ A := swapState_mem_iff A p rank hpA hrA
  have rowlen1 : ∀ row ∈ A1, row.length = n := fun row h =>
    inv.rowlen row ((mem1 row).mp h)
  have getlen1 : ∀ k, k < r → (A1.getD k []).length = n := fun k hk =>
    rowlen1 _ (getD_mem A1 k [] (by omega))
  set A2 := elimBelow A1 rank c with hA2def
  have len2 : A2.length = r := by rw [hA2def, elimBelow_len, len1, hlenA]
  have g2 : ∀ k, k < r → A2.getD k [] =
      if rank < k ∧ entry A1 k c then xorRow (A1.getD k []) (A1.getD rank [])
      else A1.getD k [] :=
    fun k hk => getD_elimBelow A1 rank c k (by omega)
  have low2 : A2.getD rank [] = A1.getD rank [] := by
    rw [g2 rank hrankr, if_neg]
    rintro ⟨h1, -⟩
    omega
  have orth1 : ∀ row ∈ A1, dotB row s = false := by
    intro row hrow
    obtain ⟨k, hk, he⟩ := (mem_iff_getD A1 [] row).mp hrow
    rw [len1, hlenA] at hk
    by_cases hcond : rank < k ∧ entry A1 k c
    · have hxr : A2.getD k [] = xorRow (A1.getD k []) (A1.getD rank []) := by
        rw [g2 k hk, if_pos hcond]
      have hback : A1.getD k [] = xorRow (A2.getD k []) (A2.getD rank []) := by
        rw [hxr, low2]
        exact (xorRow_cancel _ _ (by rw [getlen1 k hk, getlen1 rank hrankr])).symm
      rw [← he, hback,
        dotB_xorRow _ _ s (by
          rw [hxr, low2, xorRow_length, getlen1 k hk, getlen1 rank hrankr]
          simp)]
      rw [horth _ (getD_mem A2 k [] (by omega)),
        horth _ (getD_mem A2 rank [] (by omega))]
      rfl
    · have : A2.getD k [] = A1.getD k [] := by rw [g2 k hk, if_neg hcond]
      rw [← he, ← this]
      exact horth _ (getD_mem A2 k [] (by omega))
  intro row hrow
  exact orth1 row ((mem1 row).mpr hrow)

theorem elim_step_span (n r c : Nat) (A : List Row) (rank : Nat)
    (pivots : List Nat) (p : Nat) (inv : ElimInv n r c A rank pivots)
    (hfp : findPivot A c rank r = some p) :
    rowSpan n (elimBelow (if p = rank then A else swapRows A p rank) rank c)
      = rowSpan n A := by
  obtain ⟨hple, hpr, hApc, hbef⟩ := findPivot_some A c rank r p hfp
  have hrankr : rank < r := Nat.lt_of_le_of_lt hple hpr
  have hlenA : A.length = r := inv.len
  have hpA : p < A.length := by omega
  have hrA : rank < A.length := by omega
  set A1 := if p = rank then A else swapRows A p rank with hA1def
  have len1 : A1.length = A.length := swapState_len A p rank
  have mem1 : ∀ row, row ∈ A1 ↔ row ∈ A := swapState_mem_iff A p rank hpA hrA
  have rowlen1 : ∀ row ∈ A1, row.length = n := fun row h =>
    inv.rowlen row ((mem1 row).mp h)
  have getlen1 : ∀ k, k < r → (A1.getD k []).length = n := fun k hk =>
    rowlen1 _ (getD_mem A1 k [] (by omega))
  set A2 := elimBelow A1 rank c with hA2def
  have len2 : A2.length = r := by rw [hA2def, elimBelow_len, len1, hlenA]
  have g2 : ∀ k, k < r → A2.getD k [] =
      if rank < k ∧ entry A1 k c then xorRow (A1.getD k []) (A1.getD rank [])
      else A1.getD k [] :=
    fun k hk => getD_elimBelow A1 rank c k (by omega)
  have getlen2 : ∀ k, k < r → (A2.getD k []).length = n := by
    intro k hk
    rw [g2 k hk]
    split_ifs with h
    · rw [xorRow_length, getlen1 k hk, getlen1 rank hrankr]; omega
    · exact getlen1 k hk
  have low2 : A2.getD rank [] = A1.getD rank [] := by
    rw [g2 rank hrankr, if_neg]
    rintro ⟨h1, -⟩
    omega
  have hset1 : rowSet n A1 = rowSet n A := by
    ext v
    constructor
    · rintro ⟨row, hrow, rfl⟩
      exact ⟨row, (mem1 row).mp hrow, rfl⟩
    · rintro ⟨row, hrow, rfl⟩
      exact ⟨row, (mem1 row).mpr hrow, rfl⟩
  have hspan1 : rowSpan n A1 = rowSpan n A := by
    unfold rowSpan
    rw [hset1]
  have hspan2 : rowSpan n A2 = rowSpan n A1 := by
    apply le_antisymm
    · apply Submodule.span_le.mpr
      rintro v ⟨row, hrow, rfl⟩
      obtain ⟨k, hk, he⟩ := (mem_iff_getD A2 [] row).mp hrow
      rw [len2] at hk
      rw [← he, g2 k hk]
      split_ifs with hcond
      · rw [rowVec_xorRow n _ _ (getlen1 k hk) (getlen1 rank hrankr)]
        exact Submodule.add_mem _
          (Submodule.subset_span ⟨A1.getD k [], getD_mem A1 k [] (by omega), rfl⟩)
          (Submodule.subset_span ⟨A1.getD rank [], getD_mem A1 rank [] (by omega), rfl⟩)
      · exact Submodule.subset_span ⟨A1.getD k [], getD_mem A1 k [] (by omega), rfl⟩
    · apply Submodule.span_le.mpr
      rintro v ⟨row, hrow, rfl⟩
      obtain ⟨k, hk, he⟩ := (mem_iff_getD A1 [] row).mp hrow
      rw [len1, hlenA] at hk
      by_cases hcond : rank < k ∧ entry A1 k c
      · have hxr : A2.getD k [] = xorRow (A1.getD k []) (A1.getD rank []) := by
          rw [g2 k hk, if_pos hcond]
        have hback : A1.getD k [] = xorRow (A2.getD k []) (A2.getD rank []) := by
          rw [hxr, low2]
          exact (xorRow_cancel _ _ (by rw [getlen1 k hk, getlen1 rank hrankr])).symm
        rw [← he, hback, rowVec_xorRow n _ _ (getlen2 k hk) (low2 ▸ getlen1 rank hrankr)]
        exact Submodule.add_mem _
          (Submodule.subset_span ⟨A2.getD k [], getD_mem A2 k [] (by omega), rfl⟩)
          (Submodule.subset_span ⟨A2.getD rank [], getD_mem A2 rank [] (by omega), rfl⟩)
      · have : A2.getD k [] = A1.getD k [] := by rw [g2 k hk, if_neg hcond]
        rw [← he, ← this]
        exact Submodule.subset_span ⟨A2.getD k [], getD_mem A2 k [] (by omega), rfl⟩
  rw [hspan2, hspan1]

/-- A column with no pivot just extends the zero block. -/
theorem elim_none_inv (n r c : Nat) (A : List Row) (rank : Nat)
    (pivots : List Nat) (inv : ElimInv n r c A rank pivots)
    (hfp : findPivot A c rank r = none) :
    ElimInv n r (c + 1) A rank pivots := by
  refine ⟨inv.len, inv.rowlen, inv.rank_le, inv.piv_len, ?_, inv.piv_mono,
    inv.echelon, ?_⟩
  · exact fun q hq => Nat.lt_succ_of_lt (inv.piv_lt q hq)
  · intro i hi hir j hj
    rcases Nat.lt_or_ge j c with hjc | hjc
    · exact inv.zblock i hi hir j hjc
    · have : j = c := by omega
      subst this
      exact findPivot_none A j rank r hfp i hi hir

/-- After the break (`rank == r`) the zero block is vacuous, so the
invariant holds for any larger processed-column bound. -/
theorem ElimInv.weaken (n r c : Nat) (A : List Row) (rank : Nat)
    (pivots : List Nat) (inv : ElimInv n r c A rank pivots)
    (hrr : rank = r) (c' : Nat) (hcc : c ≤ c') :
    ElimInv n r c' A rank pivots := by
  refine ⟨inv.len, inv.rowlen, inv.rank_le, inv.piv_len, ?_, inv.piv_mono,
    inv.echelon, ?_⟩
  · exact fun q hq => Nat.lt_of_lt_of_le (inv.piv_lt q hq) hcc
  · intro i hi hir j hj
    omega

/-! ### The main elimination loop theorem -/

theorem elimGo_cons_none (r col : Nat) (rest : List Nat) (A : List Row)
    (rank : Nat) (pivots : List Nat) (h : findPivot A col rank r = none) :
    elimGo r (col :: rest) A rank pivots = elimGo r rest A rank pivots := by
  simp [elimGo, h]

theorem elimGo_cons_some_break (r col : Nat) (rest : List Nat) (A : List Row)
    (rank : Nat) (pivots : List Nat) (p : Nat)
    (h : findPivot A col rank r = some p) (hb : rank + 1 = r) :
    elimGo r (col :: rest) A rank pivots =
      (elimBelow (if p = rank then A else swapRows A p rank) rank col,
        rank + 1, pivots ++ [col]) := by
  simp [elimGo, h, hb]

theorem elimGo_cons_some_cont (r col : Nat) (rest : List Nat) (A : List Row)
    (rank : Nat) (pivots : List Nat) (p : Nat)
    (h : findPivot A col rank r = some p) (hb : ¬ rank + 1 = r) :
    elimGo r (col :: rest) A rank pivots =
      elimGo r rest (elimBelow (if p = rank then A else swapRows A p rank) rank col)
        (rank + 1) (pivots ++ [col]) := by
  simp [elimGo, h, hb]

theorem elimGo_post (n r : Nat) :
    ∀ (k c : Nat) (A : List Row) (rank : Nat) (pivots : List Nat),
      c + k ≤ n → ElimInv n r c A rank pivots →
      ElimPost n r (c + k) A pivots (elimGo r (List.range' c k) A rank pivots) := by
  intro k
  induction k with
  | zero =>
    intro c A rank pivots hck inv
    refine ⟨by simpa [elimGo] using inv, ?_, ?_, ⟨[], by simp [elimGo]⟩⟩
    · intro s h
      simpa [elimGo] using h
    · simp [elimGo]
  | succ k ih =>
    intro c A rank pivots hck inv
    rw [List.range'_succ]
    cases hfp : findPivot A c rank r with
    | none =>
      rw [elimGo_cons_none r c _ A rank pivots hfp]
      have inv1 : ElimInv n r (c + 1) A rank pivots := elim_none_inv n r c A rank pivots inv hfp
      have := ih (c + 1) A rank pivots (by omega) inv1
      have hidx : c + 1 + k = c + (k + 1) := by omega
      rw [hidx] at this
      exact this
    | some p =>
      by_cases hb : rank + 1 = r
      · rw [elimGo_cons_some_break r c _ A rank pivots p hfp hb]
        have inv1 := elim_step_inv n r c A rank pivots p inv (by omega) hfp
        refine ⟨?_, ?_, ?_, ⟨[c], rfl⟩⟩
        · exact inv1.weaken n r (c + 1) _ _ _ hb (c + (k + 1)) (by omega)
        · intro s h
          exact elim_step_orth n r c A rank pivots p inv hfp s h
        · exact elim_step_span n r c A rank pivots p inv hfp
      · rw [elimGo_cons_some_cont r c _ A rank pivots p hfp hb]
        have inv1 := elim_step_inv n r c A rank pivots p inv (by omega) hfp
        have post := ih (c + 1)
          (elimBelow (if p = rank then A else swapRows A p rank) rank c)
          (rank + 1) (pivots ++ [c]) (by omega) inv1
        have hidx : c + 1 + k = c + (k + 1) := by omega
        rw [hidx] at post
        obtain ⟨postInv, postOrth, postSpan, extra, hextra⟩ := post
        refine ⟨postInv, ?_, ?_, ⟨[c] ++ extra, by rw [hextra, List.append_assoc]⟩⟩
        · intro s h
          exact elim_step_orth n r c A rank pivots p inv hfp s (postOrth s h)
        · rw [postSpan]
          exact elim_step_span n r c A rank pivots p inv hfp

/-! ### Initial invariant and the elimination post at a full column range -/

theorem ElimInv.initial (n r : Nat) (rows : List Row) (hlen : rows.length = r)
    (hrow : ∀ row ∈ rows, row.length = n) : ElimInv n r 0 rows 0 [] := by
  refine ⟨hlen, hrow, by omega, rfl, by simp, List.Pairwise.nil, ?_, ?_⟩
  · intro i hi
    omega
  · intro i hi hir j hj
    omega

theorem elimGo_range_post (n m : Nat) (rows : List Row) (hm : m ≤ n)
    (hrow : ∀ row ∈ rows, row.length = n) :
    ElimPost n rows.length m rows []
      (elimGo rows.length (List.range m) rows 0 []) := by
  rw [List.range_eq_range' m]
  have h := elimGo_post n rows.length m 0 rows 0 [] (by omega)
    (ElimInv.initial n rows.length rows rfl hrow)
  simpa using h

/-! ### Back-substitution -/

theorem drop_cons_getD {α : Type} (l : List α) (p : Nat) (d : α)
    (h : p < l.length) : l.drop p = l.getD p d :: l.drop (p + 1) := by
  rw [List.drop_eq_getElem_cons h]
  congr 1
  simp [List.getD_eq_getElem?_getD, List.getElem?_eq_getElem h]

theorem dotB_nil_left (s : Row) : dotB [] s = false := by
  cases s <;> rfl

theorem dot_drop_one (row s : Row) (p : Nat) (hp : row.getD p false = false) :
    dotB (row.drop p) (s.drop p) = dotB (row.drop (p + 1)) (s.drop (p + 1)) := by
  rcases Nat.lt_or_ge p row.length with hrp | hrp
  · rw [drop_cons_getD row p false hrp, hp]
    rcases Nat.lt_or_ge p s.length with hsp | hsp
    · rw [drop_cons_getD s p false hsp]
      simp [dotB]
    · have h1 : s.drop p = [] := List.drop_eq_nil_of_le hsp
      have h2 : s.drop (p + 1) = [] :=
        List.drop_eq_nil_of_le (Nat.le_trans hsp (Nat.le_succ p))
      rw [h1, h2, dotB_nil_right, dotB_nil_right]
  · have h1 : row.drop p = [] := List.drop_eq_nil_of_le hrp
    have h2 : row.drop (p + 1) = [] :=
      List.drop_eq_nil_of_le (Nat.le_trans hrp (Nat.le_succ p))
    rw [h1, h2, dotB_nil_left, dotB_nil_left]

theorem dot_drop_of_false_before (row s : Row) :
    ∀ p, (∀ j, j < p → row.getD j false = false) →
      dotB row s = dotB (row.drop p) (s.drop p) := by
  intro p
  induction p with
  | zero => intro _; simp
  | succ p ih =>
    intro h
    rw [ih fun j hj => h j (by omega)]
    exact dot_drop_one row s p (h p (by omega))

theorem foldrange_dot (row s : Row) (n : Nat) (hr : row.length = n)
    (hs : s.length = n) :
    ∀ (k i : Nat), i + k = n →
      (List.range' i k).foldl
        (fun acc j => Bool.xor acc (row.getD j false && s.getD j false)) false
      = dotB (row.drop i) (s.drop i) := by
  intro k
  induction k with
  | zero =>
    intro i hi
    have : row.drop i = [] := List.drop_eq_nil_of_le (by omega)
    rw [this]
    simp [List.range', dotB]
  | succ k ih =>
    intro i hi
    rw [List.range'_succ]
    simp only [List.foldl_cons]
    rw [foldl_xor_acc (fun j => row.getD j false && s.getD j false)
      (List.range' (i + 1) k), ih (i + 1) (by omega)]
    rw [drop_cons_getD row i false (by omega), drop_cons_getD s i false (by omega)]
    simp [dotB]

theorem backsubStep_dot (n : Nat) (row s : Row) (p : Nat)
    (hrowlen : row.length = n) (hslen : s.length = n) (hp : p < n)
    (hptrue : row.getD p false = true)
    (hbef : ∀ j, j < p → row.getD j false = false) :
    (backsubStep n row s).length = n ∧
    (∀ j, j ≠ p → (backsubStep n row s).getD j false = s.getD j false) ∧
    dotB row (backsubStep n row s) = false := by
  have hfind : (List.range n).find? (fun j => row.getD j false) = some p := by
    rw [List.range_eq_range' n]
    exact find?_range'_of (Nat.zero_le p) (by omega) hptrue
      (fun q _ hq => hbef q hq)
  have hstep : backsubStep n row s =
      s.set p ((List.range' (p + 1) (n - (p + 1))).foldl
        (fun acc j => Bool.xor acc (row.getD j false && s.getD j false)) false) := by
    unfold backsubStep
    rw [hfind]
  have hrhs : (List.range' (p + 1) (n - (p + 1))).foldl
      (fun acc j => Bool.xor acc (row.getD j false && s.getD j false)) false
      = dotB (row.drop (p + 1)) (s.drop (p + 1)) :=
    foldrange_dot row s n hrowlen hslen (n - (p + 1)) (p + 1) (by omega)
  refine ⟨by rw [hstep]; simp [hslen], ?_, ?_⟩
  · intro j hj
    rw [hstep]
    exact getD_set_ne s p j _ false (Ne.symm hj)
  · rw [hstep, hrhs]
    set rhs := dotB (row.drop (p + 1)) (s.drop (p + 1)) with hrhsdef
    set s1 := s.set p rhs with hs1def
    have hs1len : s1.length = s.length := by rw [hs1def]; simp
    rw [dot_drop_of_false_before row s1 p hbef]
    rw [drop_cons_getD row p false (by omega),
      drop_cons_getD s1 p false (by rw [hs1len]; omega)]
    have h1 : s1.getD p false = rhs := getD_set_self s p rhs false (by omega)
    have h2 : s1.drop (p + 1) = s.drop (p + 1) := drop_set_of_lt s p (p + 1) rhs (by omega)
    rw [h1, h2, hptrue]
    simp [dotB, ← hrhsdef]

theorem pairwise_lt_getD (l : List Nat) (h : l.Pairwise (· < ·)) (i j : Nat)
    (hij : i < j) (hj : j < l.length) : l.getD i 0 < l.getD j 0 := by
  have hi : i < l.length := by omega
  have hgi : l.getD i 0 = l.get ⟨i, hi⟩ := by
    simp [List.getD_eq_getElem?_getD, List.getElem?_eq_getElem hi]
  have hgj : l.getD j 0 = l.get ⟨j, hj⟩ := by
    simp [List.getD_eq_getElem?_getD, List.getElem?_eq_getElem hj]
  rw [hgi, hgj]
  exact List.pairwise_iff_get.mp h ⟨i, hi⟩ ⟨j, hj⟩ hij

theorem backsubAux_spec (n r : Nat) (A : List Row) (rank : Nat)
    (pivots : List Nat) (inv : ElimInv n r n A rank pivots) :
    ∀ t, t ≤ rank → ∀ s : Row, s.length = n →
      (backsubAux n A t s).length = n ∧
      (∀ j, (∀ i, i < t → pivots.getD i 0 ≠ j) →
        (backsubAux n A t s).getD j false = s.getD j false) ∧
      (∀ i, i < t → dotB (A.getD i []) (backsubAux n A t s) = false) := by
  intro t
  induction t with
  | zero =>
    intro _ s hs
    refine ⟨by simpa [backsubAux] using hs, ?_, ?_⟩
    · intro j _; simp [backsubAux]
    · intro i hi; omega
  | succ t ih =>
    intro ht s hs
    have hfold : backsubAux n A (t + 1) s =
        backsubAux n A t (backsubStep n (A.getD t []) s) := by
      unfold backsubAux
      rw [List.range_succ, List.reverse_append]
      simp
    have htrank : t < rank := by omega
    have htR : t < r := by
      have := inv.rank_le
      omega
    have hrowmem : A.getD t [] ∈ A := getD_mem A t [] (by rw [inv.len]; omega)
    have hrowlen : (A.getD t []).length = n := inv.rowlen _ hrowmem
    have hpt_mem : pivots.getD t 0 ∈ pivots :=
      getD_mem pivots t 0 (by rw [inv.piv_len]; omega)
    have hpt_lt : pivots.getD t 0 < n := inv.piv_lt _ hpt_mem
    have hech := inv.echelon t htrank
    obtain ⟨hlen1, hne1, hdot1⟩ := backsubStep_dot n (A.getD t []) s
      (pivots.getD t 0) hrowlen hs hpt_lt hech.1 (fun j hj => hech.2 j hj)
    obtain ⟨hlenO, hneO, hdotO⟩ := ih (by omega) (backsubStep n (A.getD t []) s) hlen1
    refine ⟨by rw [hfold]; exact hlenO, ?_, ?_⟩
    · intro j hj
      rw [hfold, hneO j (fun i hi => hj i (by omega)),
        hne1 j (Ne.symm (hj t (by omega)))]
    · intro i hi
      rcases Nat.lt_or_ge i t with hit | hit
      · rw [hfold]
        exact hdotO i hit
      · have : i = t := by omega
        subst this
        rw [hfold]
        have hagree : ∀ j, (A.getD i []).getD j false = true →
            (backsubAux n A i (backsubStep n (A.getD i []) s)).getD j false
              = (backsubStep n (A.getD i []) s).getD j false := by
          intro j hjtrue
          refine hneO j ?_
          intro i2 hi2
          have hlt : pivots.getD i2 0 < pivots.getD i 0 :=
            pairwise_lt_getD pivots inv.piv_mono i2 i hi2 (by rw [inv.piv_len]; omega)
          have hge : pivots.getD i 0 ≤ j := by
            by_contra hc
            have hfalse : (A.getD i []).getD j false = false := hech.2 j (by omega)
            rw [hfalse] at hjtrue
            exact Bool.noConfusion hjtrue
          omega
        rw [dotB_congr (A.getD i []) _ _ (by rw [hlenO, hlen1]) hagree]
        exact hdot1

/-! ### Support facts for the solver theorem -/

theorem bits_to_int_foldl_ne_zero :
    ∀ (l : List Bool) (acc : Nat), (acc ≠ 0 ∨ ∃ b ∈ l, b = true) →
      l.foldl (fun x b => 2 * x + b.toNat) acc ≠ 0 := by
  intro l
  induction l with
  | nil =>
    intro acc h
    rcases h with h | ⟨b, hb, _⟩
    · simpa using h
    · simp at hb
  | cons b bs ih =>
    intro acc h
    simp only [List.foldl_cons]
    apply ih
    rcases h with h | ⟨x, hx, hxt⟩
    · left
      cases b <;> simp <;> omega
    · rcases List.mem_cons.mp hx with rfl | hmem
      · left
        rw [hxt]
        simp
      · right
        exact ⟨x, hmem, hxt⟩

theorem bits_to_int_ne_zero (s : Row)
    (h : ∃ j, j < s.length ∧ s.getD j false = true) : bits_to_int s ≠ 0 := by
  obtain ⟨j, hj, hjt⟩ := h
  unfold bits_to_int
  apply bits_to_int_foldl_ne_zero
  right
  exact ⟨s.getD j false, getD_mem s j false hj, hjt⟩

theorem nodup_lt_length_le (l : List Nat) (n : Nat) (hlt : ∀ x ∈ l, x < n)
    (hnd : l.Nodup) : l.length ≤ n := by
  have hsub : l.toFinset ⊆ Finset.range n := fun x hx =>
    Finset.mem_range.mpr (hlt x (List.mem_toFinset.mp hx))
  have h1 := Finset.card_le_card hsub
  rw [List.toFinset_card_of_nodup hnd, Finset.card_range] at h1
  exact h1

theorem filter_not_mem_ne_nil (n : Nat) (pivots : List Nat)
    (hnd : pivots.Nodup) (hrank : pivots.length < n) :
    (List.range n).filter (fun c => decide (c ∉ pivots)) ≠ [] := by
  intro hempty
  have hsub : Finset.range n ⊆ pivots.toFinset := by
    intro c hc
    have hcr : c ∈ List.range n := by simpa using hc
    have h2 := List.filter_eq_nil_iff.mp hempty c hcr
    simp at h2
    exact List.mem_toFinset.mpr h2
  have h1 := Finset.card_le_card hsub
  rw [Finset.card_range, List.toFinset_card_of_nodup hnd] at h1
  omega

/-- On a nonempty list of width-n rows (n positive) the solver reaches the
elimination, and its result is described by the rank / free-column split. -/
theorem solve_eq_backsub (n : Nat) (rows : List Row) (hne : rows ≠ [])
    (hn : 1 ≤ n) (hlen : ∀ row ∈ rows, row.length = n) :
    solve_for_s_from_measurements n rows =
      (if (solveElim n rows).2.1 = n then some 0
       else
         match (List.range n).filter (fun c => decide (c ∉ (solveElim n rows).2.2)) with
         | [] => some 0
         | fc :: _ => some (bits_to_int (backsubAux n (solveElim n rows).1
             (solveElim n rows).2.1 ((List.replicate n false).set fc true)))) := by
  have hlen0 : rows.length ≠ 0 := fun h => hne (List.length_eq_zero.mp h)
  have hhead : (rows.headD []).length = n := by
    cases rows with
    | nil => exact absurd rfl hne
    | cons a t => exact hlen a (by simp)
  have hprod : ¬ (rows.length * (rows.headD []).length = 0) := by
    rw [hhead]
    intro h
    rcases Nat.mul_eq_zero.mp h with h | h
    · exact hlen0 h
    · omega
  simp only [solve_for_s_from_measurements, solveElim, backsubAux]
  rw [if_neg hprod, if_neg hlen0]

theorem solve_of_rank_n (n : Nat) (rows : List Row) (hne : rows ≠ [])
    (hn : 1 ≤ n) (hlen : ∀ row ∈ rows, row.length = n)
    (hr : (solveElim n rows).2.1 = n) :
    solve_for_s_from_measurements n rows = some 0 := by
  rw [solve_eq_backsub n rows hne hn hlen, if_pos hr]

theorem solve_of_backsub (n : Nat) (rows : List Row) (hne : rows ≠ [])
    (hn : 1 ≤ n) (hlen : ∀ row ∈ rows, row.length = n)
    (hr : ¬ (solveElim n rows).2.1 = n) (fc : Nat) (fcs : List Nat)
    (hfc : (List.range n).filter (fun c => decide (c ∉ (solveElim n rows).2.2))
      = fc :: fcs) :
    solve_for_s_from_measurements n rows =
      some (bits_to_int (backsubAux n (solveElim n rows).1 (solveElim n rows).2.1
        ((List.replicate n false).set fc true))) := by
  rw [solve_eq_backsub n rows hne hn hlen, if_neg hr, hfc]

/-- Claim C2: on a non-empty list of n-bit rows (the configuration fixes the
bit-width n as a positive integer, section 6 of the spec),
`solve_for_s_from_measurements` returns 0 exactly when the GF(2)
forward-elimination rank of the rows equals n, and otherwise returns the
integer encoding of a non-zero n-bit vector s whose GF(2) dot product with
every input row (not only the reduced rows) is 0. -/
theorem claim_C2 (n : Nat) (rows : List Row) (hn : 1 ≤ n) (hne : rows ≠ [])
    (hlen : ∀ row ∈ rows, row.length = n) :
    (solve_for_s_from_measurements n rows = some 0 ↔ (solveElim n rows).2.1 = n) ∧
    ((solveElim n rows).2.1 < n →
      ∃ s : Row, s.length = n ∧ s ≠ List.replicate n false ∧
        solve_for_s_from_measurements n rows = some (bits_to_int s) ∧
        ∀ y ∈ rows, dotB y s = false) := by
  have hpost := elimGo_range_post n n rows (Nat.le_refl n) hlen
  unfold ElimPost at hpost
  obtain ⟨inv, orth, hspan, extra, hextra⟩ := hpost
  by_cases hrank : (solveElim n rows).2.1 = n
  · refine ⟨⟨fun _ => hrank, fun _ => solve_of_rank_n n rows hne hn hlen hrank⟩, ?_⟩
    intro hlt
    omega
  · have hinv : ElimInv n rows.length n (solveElim n rows).1 (solveElim n rows).2.1
        (solveElim n rows).2.2 := inv
    have hnodup : (solveElim n rows).2.2.Nodup :=
      hinv.piv_mono.imp fun h => Nat.ne_of_lt h
    have hrankle : (solveElim n rows).2.1 ≤ n := by
      have := nodup_lt_length_le (solveElim n rows).2.2 n
        (fun x hx => hinv.piv_lt x hx) hnodup
      rw [hinv.piv_len] at this
      exact this
    have hlt : (solveElim n rows).2.1 < n := by omega
    have hfree := filter_not_mem_ne_nil n (solveElim n rows).2.2 hnodup
      (by rw [hinv.piv_len]; omega)
    obtain ⟨fc, fcs, hfc⟩ : ∃ fc fcs,
        (List.range n).filter (fun c => decide (c ∉ (solveElim n rows).2.2))
          = fc :: fcs := by
      cases hh : (List.range n).filter (fun c => decide (c ∉ (solveElim n rows).2.2)) with
      | nil => exact absurd hh hfree
      | cons a l => exact ⟨a, l, rfl⟩
    have hfc_mem : fc ∈ (List.range n).filter
        (fun c => decide (c ∉ (solveElim n rows).2.2)) := by
      rw [hfc]
      exact List.mem_cons_self fc fcs
    have hfc2 := List.mem_filter.mp hfc_mem
    have hfcn : fc < n := by simpa using hfc2.1
    have hfcp : fc ∉ (solveElim n rows).2.2 := by simpa using hfc2.2
    have hs0len : ((List.replicate n false).set fc true).length = n := by simp
    obtain ⟨hslen, hsne, hsdot⟩ := backsubAux_spec n rows.length
      (solveElim n rows).1 (solveElim n rows).2.1 (solveElim n rows).2.2 hinv
      (solveElim n rows).2.1 (Nat.le_refl _)
      ((List.replicate n false).set fc true) hs0len
    have hs1fc : (backsubAux n (solveElim n rows).1 (solveElim n rows).2.1
        ((List.replicate n false).set fc true)).getD fc false = true := by
      rw [hsne fc fun i hi heq =>
        hfcp (heq ▸ getD_mem (solveElim n rows).2.2 i 0 (by rw [hinv.piv_len]; omega))]
      exact getD_set_self _ _ _ _ (by simpa using hfcn)
    have hs1ne : backsubAux n (solveElim n rows).1 (solveElim n rows).2.1
        ((List.replicate n false).set fc true) ≠ List.replicate n false := by
      intro heq
      rw [heq, getD_replicate_self] at hs1fc
      exact Bool.noConfusion hs1fc
    have hallrows : ∀ row ∈ (solveElim n rows).1,
        dotB row (backsubAux n (solveElim n rows).1 (solveElim n rows).2.1
          ((List.replicate n false).set fc true)) = false := by
      intro row hrow
      obtain ⟨k, hk, he⟩ := (mem_iff_getD (solveElim n rows).1 [] row).mp hrow
      rcases Nat.lt_or_ge k (solveElim n rows).2.1 with hkr | hkr
      · rw [← he]
        exact hsdot k hkr
      · have hkR : k < rows.length := by rw [← hinv.len]; exact hk
        have hrl : row.length = n := hinv.rowlen row hrow
        apply dotB_all_false
        intro b hb
        obtain ⟨j, hjlen, hje⟩ := (mem_iff_getD row false b).mp hb
        rw [← hje, ← he]
        exact hinv.zblock k hkr hkR j (by omega)
    have horig := orth _ hallrows
    have hsolve := solve_of_backsub n rows hne hn hlen hrank fc fcs hfc
    have hbits : bits_to_int (backsubAux n (solveElim n rows).1 (solveElim n rows).2.1
        ((List.replicate n false).set fc true)) ≠ 0 :=
      bits_to_int_ne_zero _ ⟨fc, by rw [hslen]; exact hfcn, hs1fc⟩
    refine ⟨⟨?_, fun h => absurd h hrank⟩, fun _ => ⟨_, hslen, hs1ne, hsolve, horig⟩⟩
    intro hsome
    rw [hsolve] at hsome
    exact absurd (Option.some.inj hsome) hbits

/-- Claim C2 witness: the solver theorem instantiated at n = 2 with the
single measurement 10. -/
theorem claim_C2_witness :
    (1 ≤ 2 ∧ ([[true, false]] : List Row) ≠ [] ∧
      ∀ row ∈ ([[true, false]] : List Row), row.length = 2) ∧
    ((solve_for_s_from_measurements 2 [[true, false]] = some 0 ↔
        (solveElim 2 [[true, false]]).2.1 = 2) ∧
      ((solveElim 2 [[true, false]]).2.1 < 2 →
        ∃ s : Row, s.length = 2 ∧ s ≠ List.replicate 2 false ∧
          solve_for_s_from_measurements 2 [[true, false]] = some (bits_to_int s) ∧
          ∀ y ∈ ([[true, false]] : List Row), dotB y s = false)) :=
  ⟨⟨by decide, by decide, by decide⟩,
    claim_C2 2 [[true, false]] (by decide) (by decide) (by decide)⟩

/-- Claim C1 (code-bug evidence).  For n = 3 and hidden s = 100 (the
integer 4), the two measurements 001 and 010 are non-zero, linearly
independent (the full elimination of `solve_for_s_from_measurements`
gives rank 2 = n - 1) and orthogonal to s, and the bare solver would
recover exactly 4; yet `solve_for_s_enhanced` rejects the batch with
`Insufficient independent vectors (rank=1, need 2)`, because
`check_linear_independence` scans only `min(n, r) = 2` columns and so
underestimates the rank, contradicting the round-trip property and the
stated purpose of the function. -/
theorem claim_C1 :
    solve_for_s_enhanced 3 [[false, false, true], [false, true, false]]
      = (none, SolveStatus.insufficient 1 2) ∧
    (solveElim 3 [[false, false, true], [false, true, false]]).2.1 = 2 ∧
    dotB [false, false, true] [true, false, false] = false ∧
    dotB [false, true, false] [true, false, false] = false ∧
    bits_to_int [true, false, false] = 4 ∧
    solve_for_s_from_measurements 3 [[false, false, true], [false, true, false]]
      = some 4 := by
  decide

theorem check_fst (vectors : List Row) (n : Nat) (hv : vectors ≠ []) :
    (check_linear_independence vectors n).1
      = decide (n - 1 ≤ (check_linear_independence vectors n).2) := by
  unfold check_linear_independence
  rw [if_neg hv]

/-- Claim C3: whenever the all-zero filter leaves a non-empty list,
`solve_for_s_enhanced` fails with the insufficient-vectors detail carrying
the computed rank and the needed value n-1 exactly when that rank is
strictly below n-1. -/
theorem claim_C3 (n : Nat) (ms : List Row) (hne : useful_measurements n ms ≠ []) :
    (solve_for_s_enhanced n ms
        = (none, SolveStatus.insufficient
            (check_linear_independence (useful_measurements n ms) n).2 (n - 1))
      ↔ (check_linear_independence (useful_measurements n ms) n).2 < n - 1) := by
  have hms : ms ≠ [] := by
    intro h
    rw [h] at hne
    exact hne rfl
  unfold solve_for_s_enhanced
  rw [if_neg hms, if_neg hne]
  by_cases hc : (check_linear_independence (useful_measurements n ms) n).2 < n - 1
  · have hb : (!(check_linear_independence (useful_measurements n ms) n).1 &&
        decide ((check_linear_independence (useful_measurements n ms) n).2 < n - 1))
        = true := by
      rw [check_fst _ _ hne]
      simp only [Bool.and_eq_true, Bool.not_eq_true', decide_eq_false_iff_not,
        decide_eq_true_eq]
      exact ⟨by omega, hc⟩
    rw [if_pos hb]
    exact ⟨fun _ => hc, fun _ => rfl⟩
  · have hb : (!(check_linear_independence (useful_measurements n ms) n).1 &&
        decide ((check_linear_independence (useful_measurements n ms) n).2 < n - 1))
        = false := by
      simp only [Bool.and_eq_false_iff]
      right
      simpa using hc
    rw [if_neg (by rw [hb]; exact Bool.false_ne_true)]
    constructor
    · intro h
      have := (Prod.mk.injEq _ _ _ _ ▸ h).2
      exact absurd this (by intro hcon; exact SolveStatus.noConfusion hcon)
    · intro h
      exact absurd h hc

/-- Claim C3 witness: the insufficiency scenario of the spec, n = 4 with
the duplicated measurement 0110: rank 1, needed 3. -/
theorem claim_C3_witness :
    (useful_measurements 4 [[false, true, true, false], [false, true, true, false]] ≠ []) ∧
    solve_for_s_enhanced 4 [[false, true, true, false], [false, true, true, false]]
      = (none, SolveStatus.insufficient 1 3) :=
  ⟨by decide, by
    have h := (claim_C3 4 [[false, true, true, false], [false, true, true, false]]
      (by decide)).mpr (by decide)
    exact h.trans (by decide)⟩

/-- Claim C4: an empty input, or one whose every element is the all-zero
string, makes `solve_for_s_enhanced` return no vector at all, with one of
the two no-informative-measurements failure reasons. -/
theorem claim_C4 (n : Nat) (ms : List Row)
    (h : ms = [] ∨ ∀ m ∈ ms, m = List.replicate n false) :
    (solve_for_s_enhanced n ms).1 = none ∧
    ((solve_for_s_enhanced n ms).2 = SolveStatus.noMeasurements ∨
     (solve_for_s_enhanced n ms).2 = SolveStatus.allUninformative) := by
  by_cases hms : ms = []
  · subst hms
    exact ⟨rfl, Or.inl rfl⟩
  · rcases h with h | hall
    · exact absurd h hms
    · have huse : useful_measurements n ms = [] := by
        apply List.filter_eq_nil_iff.mpr
        intro a ha
        simp [hall a ha]
      unfold solve_for_s_enhanced
      rw [if_neg hms, if_pos huse]
      exact ⟨rfl, Or.inr rfl⟩

/-- Claim C4 witness: the uninformative scenario of the spec,
three copies of 0000 for n = 4. -/
theorem claim_C4_witness :
    (([List.replicate 4 false, List.replicate 4 false, List.replicate 4 false] :
        List Row) = [] ∨
      ∀ m ∈ ([List.replicate 4 false, List.replicate 4 false,
        List.replicate 4 false] : List Row), m = List.replicate 4 false) ∧
    ((solve_for_s_enhanced 4 [List.replicate 4 false, List.replicate 4 false,
        List.replicate 4 false]).1 = none ∧
      ((solve_for_s_enhanced 4 [List.replicate 4 false, List.replicate 4 false,
          List.replicate 4 false]).2 = SolveStatus.noMeasurements ∨
       (solve_for_s_enhanced 4 [List.replicate 4 false, List.replicate 4 false,
          List.replicate 4 false]).2 = SolveStatus.allUninformative)) :=
  ⟨Or.inr (by decide), claim_C4 4 _ (Or.inr (by decide))⟩

/-- Claim C7 counterexample: the validator performs no deduplication.
On the duplicated input the cleaned list handed to the rank check and the
solver still contains both copies, refuting the claim that it contains no
duplicate vectors. -/
theorem claim_C7_counterexample :
    useful_measurements 4 [[false, true, true, false], [false, true, true, false]]
      = [[false, true, true, false], [false, true, true, false]] ∧
    ¬ (useful_measurements 4
        [[false, true, true, false], [false, true, true, false]]).Nodup := by
  decide

/-- Claim C7 (amended): the cleaned collection that `solve_for_s_enhanced`
hands to the rank check and to the solver is the input with the all-zero
strings removed and nothing else: the all-zero vector never survives, and
every other vector keeps its full multiplicity (no deduplication). -/
theorem claim_C7 (n : Nat) (ms : List Row) (v : Row) :
    (useful_measurements n ms).count v
      = if v = List.replicate n false then 0 else ms.count v := by
  by_cases hv : v = List.replicate n false
  · rw [if_pos hv]
    apply List.count_eq_zero.mpr
    intro hmem
    have h2 := (List.mem_filter.mp hmem).2
    simp [hv] at h2
  · rw [if_neg hv]
    exact List.count_filter (by simpa using hv)

/-- Claim C8: the noise-tolerance scenario, n = 4, true s = 1101 (13).
On the clean batch 0010, 0111, 1001 the pipeline succeeds with exactly 13;
with 0010 corrupted to 0011 it still passes the rank check but returns
1011 (11), a value different from 13 that verification by the caller
rejects, so the corrupted batch is never accepted as 1101. -/
theorem claim_C8 :
    solve_for_s_enhanced 4 [[false, false, true, false], [false, true, true, true],
        [true, false, false, true]] = (some 13, SolveStatus.success) ∧
    solve_for_s_enhanced 4 [[false, false, true, true], [false, true, true, true],
        [true, false, false, true]] = (some 11, SolveStatus.success) ∧
    (11 : Nat) ≠ 13 := by
  decide

theorem runTestAux_count_le (oracle : Nat → List Row) (n s_int : Nat)
    (add_noise : Bool) (max_retries : Nat) :
    ∀ fuel attempt,
      (runTestAux oracle n s_int add_noise max_retries fuel attempt).2
        ≤ attempt + fuel := by
  intro fuel
  induction fuel with
  | zero =>
    intro attempt
    simp [runTestAux]
  | succ fuel ih =>
    intro attempt
    simp only [runTestAux]
    split
    · split
      · simp
      · split
        · exact Nat.le_trans (ih (attempt + 1)) (by omega)
        · simp
    · split
      · exact Nat.le_trans (ih (attempt + 1)) (by omega)
      · simp

theorem runTestAux_all_none (oracle : Nat → List Row) (n s_int : Nat)
    (add_noise : Bool) (m : Nat)
    (hall : ∀ i, (solve_for_s_enhanced n (oracle i)).1 = none) :
    ∀ fuel attempt, attempt + fuel = m →
      runTestAux oracle n s_int add_noise m fuel attempt = (false, m) := by
  intro fuel
  induction fuel with
  | zero =>
    intro attempt h
    simp only [runTestAux]
    rw [Nat.add_zero] at h
    rw [h]
  | succ fuel ih =>
    intro attempt h
    simp only [runTestAux, hall attempt]
    by_cases hc : attempt < m - 1
    · rw [if_pos hc]
      exact ih (attempt + 1) (by omega)
    · rw [if_neg hc]
      have h1 : attempt + 1 = m := by omega
      rw [h1]

/-- Claim C9: for every oracle behaviour, the retry loop of
`run_test_case` begins at most `max_retries` attempts; and when every
attempt fails validation (the enhanced solver returns no vector), it
terminates after exactly `max_retries` attempts reporting overall failure
(in particular exactly 3 attempts for the default budget of 3), issuing
no further attempts afterwards. -/
theorem claim_C9 (oracle : Nat → List Row) (n s_int : Nat) (add_noise : Bool)
    (max_retries : Nat) :
    (run_test_case oracle n s_int add_noise max_retries).2 ≤ max_retries ∧
    ((∀ i, (solve_for_s_enhanced n (oracle i)).1 = none) →
      run_test_case oracle n s_int add_noise max_retries = (false, max_retries)) := by
  constructor
  · have h := runTestAux_count_le oracle n s_int add_noise max_retries max_retries 0
    simpa [run_test_case] using h
  · intro hall
    exact runTestAux_all_none oracle n s_int add_noise max_retries hall
      max_retries 0 (by omega)

/-- Claim C9 witness: an oracle that always returns only the all-zero
measurement, with budget 3: exactly 3 attempts and overall failure. -/
theorem claim_C9_witness :
    (∀ i : Nat, (solve_for_s_enhanced 4
      ((fun _ => [List.replicate 4 false]) i)).1 = none) ∧
    run_test_case (fun _ => [List.replicate 4 false]) 4 13 false 3 = (false, 3) ∧
    (run_test_case (fun _ => [List.replicate 4 false]) 4 13 false 3).2 ≤ 3 := by
  have h := claim_C9 (fun _ => [List.replicate 4 false]) 4 13 false 3
  exact ⟨fun i => rfl, h.2 (fun i => rfl), h.1⟩

/-! ### The computed rank is the dimension of the truncated row space -/

theorem elim_rank_eq_finrank (n m : Nat) (rows : List Row) (hm : m ≤ n)
    (hlen : ∀ row ∈ rows, row.length = n) :
    (elimGo rows.length (List.range m) rows 0 []).2.1
      = Module.finrank (ZMod 2)
          (Submodule.map (truncMap n m) (rowSpan n rows)) := by
  have hpost := elimGo_range_post n m rows hm hlen
  unfold ElimPost at hpost
  obtain ⟨inv, orth, hspan, extra, hextra⟩ := hpost
  set E := elimGo rows.length (List.range m) rows 0 [] with hE
  rw [← hspan]
  have hmap : Submodule.map (truncMap n m) (rowSpan n E.1)
      = Submodule.span (ZMod 2) ((truncMap n m) '' (rowSet n E.1)) := by
    unfold rowSpan
    exact Submodule.map_span _ _
  rw [hmap]
  set g : Fin E.2.1 → (Fin n → ZMod 2) :=
    fun i => truncMap n m (rowVec n (E.1.getD i [])) with hg
  have hranklen : E.2.1 ≤ rows.length := inv.rank_le
  have hlenE : E.1.length = rows.length := inv.len
  have hspan_eq : Submodule.span (ZMod 2) ((truncMap n m) '' (rowSet n E.1))
      = Submodule.span (ZMod 2) (Set.range g) := by
    apply le_antisymm
    · apply Submodule.span_le.mpr
      rintro v ⟨w, ⟨row, hrow, rfl⟩, rfl⟩
      obtain ⟨k, hk, he⟩ := (mem_iff_getD E.1 [] row).mp hrow
      rcases Nat.lt_or_ge k E.2.1 with hkr | hkr
      · apply Submodule.subset_span
        refine ⟨⟨k, hkr⟩, ?_⟩
        show truncMap n m (rowVec n (E.1.getD k [])) = truncMap n m (rowVec n row)
        rw [he]
      · have hz : truncMap n m (rowVec n row) = 0 := by
          funext j
          show (if (j : Nat) < m then rowVec n row j else 0) = 0
          by_cases hj : (j : Nat) < m
          · rw [if_pos hj]
            show (if row.getD j false then (1 : ZMod 2) else 0) = 0
            have hzb : (E.1.getD k []).getD j false = false :=
              inv.zblock k hkr (by rw [← hlenE]; exact hk) j hj
            rw [he] at hzb
            rw [hzb]
            rfl
          · rw [if_neg hj]
        rw [hz]
        exact Submodule.zero_mem _
    · apply Submodule.span_le.mpr
      rintro v ⟨i, rfl⟩
      apply Submodule.subset_span
      refine ⟨rowVec n (E.1.getD i []), ⟨E.1.getD i [],
        getD_mem E.1 i [] ?_, rfl⟩, rfl⟩
      rw [hlenE]
      have := i.isLt
      omega
  rw [hspan_eq]
  have hind : LinearIndependent (ZMod 2) g := by
    rw [linearIndependent_iff']
    intro s f hsum
    have key : ∀ (N : Nat) (i : Fin E.2.1), i ∈ s → (i : Nat) = N → f i = 0 := by
      intro N
      induction N using Nat.strong_induction_on with
      | _ N ih =>
        intro i hi hiN
        have hpi_len : (i : Nat) < E.2.2.length := by
          rw [inv.piv_len]
          exact i.isLt
        have hpiv_lt : E.2.2.getD (i : Nat) 0 < m :=
          inv.piv_lt _ (getD_mem E.2.2 (i : Nat) 0 hpi_len)
        set pt : Fin n := ⟨E.2.2.getD (i : Nat) 0, by omega⟩ with hpt
        have h1 := congrFun hsum pt
        rw [Finset.sum_apply] at h1
        simp only [Pi.smul_apply, smul_eq_mul, Pi.zero_apply] at h1
        have hgi : g i pt = 1 := by
          show (if (pt : Nat) < m then rowVec n (E.1.getD (i : Nat) []) pt else 0) = 1
          rw [if_pos (by exact hpiv_lt)]
          show (if (E.1.getD (i : Nat) []).getD (pt : Nat) false then (1 : ZMod 2) else 0) = 1
          have hE1 : (E.1.getD (i : Nat) []).getD (E.2.2.getD (i : Nat) 0) false = true :=
            (inv.echelon (i : Nat) i.isLt).1
          rw [hE1]
          rfl
        have hother : ∀ j ∈ s, j ≠ i → f j * g j pt = 0 := by
          intro j hj hji
          rcases Nat.lt_or_ge (j : Nat) (i : Nat) with hlt | hge
          · rw [ih (j : Nat) (by omega) j hj rfl, zero_mul]
          · have hgt : (i : Nat) < (j : Nat) := by
              rcases Nat.eq_or_lt_of_le hge with heq | hlt2
              · exact absurd (Fin.ext heq.symm) hji
              · exact hlt2
            have hpj : E.2.2.getD (i : Nat) 0 < E.2.2.getD (j : Nat) 0 :=
              pairwise_lt_getD E.2.2 inv.piv_mono (i : Nat) (j : Nat) hgt
                (by rw [inv.piv_len]; exact j.isLt)
            have hzero : (E.1.getD (j : Nat) []).getD (pt : Nat) false = false :=
              (inv.echelon (j : Nat) j.isLt).2 (pt : Nat) hpj
            have hgj : g j pt = 0 := by
              show (if (pt : Nat) < m then rowVec n (E.1.getD (j : Nat) []) pt else 0) = 0
              rw [if_pos (by exact hpiv_lt)]
              show (if (E.1.getD (j : Nat) []).getD (pt : Nat) false
                then (1 : ZMod 2) else 0) = 0
              rw [hzero]
              rfl
            rw [hgj, mul_zero]
        have hone := Finset.sum_eq_single_of_mem i hi hother
        rw [hone, hgi, mul_one] at h1
        exact h1
    intro i hi
    exact key (i : Nat) i hi rfl
  rw [finrank_span_eq_card hind, Fintype.card_fin]

theorem truncMap_comp (n m1 m2 : Nat) (h : m1 ≤ m2) :
    (truncMap n m1).comp (truncMap n m2) = truncMap n m1 := by
  apply LinearMap.ext
  intro v
  funext j
  show (if (j : Nat) < m1 then (if (j : Nat) < m2 then v j else 0) else 0)
    = if (j : Nat) < m1 then v j else 0
  by_cases hj : (j : Nat) < m1
  · rw [if_pos hj, if_pos hj, if_pos (by omega)]
  · rw [if_neg hj, if_neg hj]

theorem finrank_trunc_le (n m1 m2 : Nat) (h : m1 ≤ m2)
    (p : Submodule (ZMod 2) (Fin n → ZMod 2)) :
    Module.finrank (ZMod 2) (Submodule.map (truncMap n m1) p)
      ≤ Module.finrank (ZMod 2) (Submodule.map (truncMap n m2) p) := by
  rw [← truncMap_comp n m1 m2 h, Submodule.map_comp]
  exact Submodule.finrank_map_le _ _

theorem rowSpan_append_le (n : Nat) (A : List Row) (v : Row) :
    rowSpan n A ≤ rowSpan n (A ++ [v]) := by
  apply Submodule.span_mono
  rintro w ⟨row, hrow, rfl⟩
  exact ⟨row, List.mem_append_left _ hrow, rfl⟩

/-- Claim C5 counterexample: appending a duplicate of a vector already
present changes the computed rank.  With n = 2 and the single measurement
01, `check_linear_independence` scans only `min(n, r) = 1` column and
reports rank 0; after appending the duplicate it scans 2 columns and
reports rank 1. -/
theorem claim_C5_counterexample :
    [false, true] ∈ ([[false, true]] : List Row) ∧
    (check_linear_independence [[false, true]] 2).2 = 0 ∧
    (check_linear_independence ([[false, true]] ++ [[false, true]]) 2).2 = 1 := by
  decide

/-- Claim C5 (amended): appending a vector to a measurement list never
decreases the rank computed by `check_linear_independence` — in particular
appending a duplicate never decreases it — but a duplicate can strictly
increase the computed rank (see the counterexample), because the scanned
column range `min(n, r)` grows with the row count. -/
theorem claim_C5 (n : Nat) (vs : List Row) (v : Row)
    (hlen : ∀ row ∈ vs, row.length = n) (hv : v.length = n) :
    (check_linear_independence vs n).2
      ≤ (check_linear_independence (vs ++ [v]) n).2 := by
  have hlen2 : ∀ row ∈ vs ++ [v], row.length = n := by
    intro row hrow
    rcases List.mem_append.mp hrow with h | h
    · exact hlen row h
    · rw [List.mem_singleton.mp h]
      exact hv
  by_cases hvs : vs = []
  · subst hvs
    simp [check_linear_independence]
  · have happ : vs ++ [v] ≠ [] := by simp
    unfold check_linear_independence
    rw [if_neg hvs, if_neg happ]
    show (elimGo vs.length (List.range (min n vs.length)) vs 0 []).2.1
      ≤ (elimGo (vs ++ [v]).length (List.range (min n (vs ++ [v]).length))
          (vs ++ [v]) 0 []).2.1
    rw [elim_rank_eq_finrank n (min n vs.length) vs (Nat.min_le_left _ _) hlen,
      elim_rank_eq_finrank n (min n (vs ++ [v]).length) (vs ++ [v])
        (Nat.min_le_left _ _) hlen2]
    have step1 : Module.finrank (ZMod 2)
        (Submodule.map (truncMap n (min n vs.length)) (rowSpan n vs))
        ≤ Module.finrank (ZMod 2)
          (Submodule.map (truncMap n (min n (vs ++ [v]).length)) (rowSpan n vs)) := by
      apply finrank_trunc_le
      simp only [List.length_append, List.length_singleton]
      omega
    have step2 : Module.finrank (ZMod 2)
        (Submodule.map (truncMap n (min n (vs ++ [v]).length)) (rowSpan n vs))
        ≤ Module.finrank (ZMod 2)
          (Submodule.map (truncMap n (min n (vs ++ [v]).length))
            (rowSpan n (vs ++ [v]))) :=
      Submodule.finrank_mono (Submodule.map_mono (rowSpan_append_le n vs v))
    exact Nat.le_trans step1 step2

/-- Claim C6 counterexample: with fewer rows than columns the two rank
computations differ: for the single vector 01 and n = 2,
`check_linear_independence` reports rank 0 (it scans only the first
`min(n, r) = 1` column) while the elimination inside
`solve_for_s_from_measurements` scans both columns and counts 1 pivot. -/
theorem claim_C6_counterexample :
    (check_linear_independence [[false, true]] 2).2 = 0 ∧
    (solveElim 2 [[false, true]]).2.1 = 1 := by
  decide

/-- Claim C6 (amended): the rank computed by `check_linear_independence`
never exceeds the pivot count of the forward elimination inside
`solve_for_s_from_measurements`, and the two agree whenever the list has
at least n rows (then both scan all n columns); with fewer rows the check
can undercount (see the counterexample). -/
theorem claim_C6 (n : Nat) (rows : List Row)
    (hlen : ∀ row ∈ rows, row.length = n) :
    (check_linear_independence rows n).2 ≤ (solveElim n rows).2.1 ∧
    (n ≤ rows.length →
      (check_linear_independence rows n).2 = (solveElim n rows).2.1) := by
  constructor
  · by_cases hvs : rows = []
    · subst hvs
      simp [check_linear_independence]
    · unfold check_linear_independence solveElim
      rw [if_neg hvs]
      show (elimGo rows.length (List.range (min n rows.length)) rows 0 []).2.1
        ≤ (elimGo rows.length (List.range n) rows 0 []).2.1
      rw [elim_rank_eq_finrank n (min n rows.length) rows (Nat.min_le_left _ _) hlen,
        elim_rank_eq_finrank n n rows (Nat.le_refl n) hlen]
      exact finrank_trunc_le n _ n (Nat.min_le_left _ _) (rowSpan n rows)
  · intro hn
    by_cases hvs : rows = []
    · subst hvs
      have hn0 : n = 0 := by simpa using hn
      subst hn0
      simp [check_linear_independence, solveElim, elimGo]
    · simp only [check_linear_independence, solveElim]
      rw [if_neg hvs, Nat.min_eq_left hn]

/-- Claim C5 witness: the monotonicity theorem instantiated at n = 2,
appending 01 to the list holding 10. -/
theorem claim_C5_witness :
    ((∀ row ∈ ([[true, false]] : List Row), row.length = 2) ∧
      ([false, true] : Row).length = 2) ∧
    (check_linear_independence [[true, false]] 2).2
      ≤ (check_linear_independence ([[true, false]] ++ [[false, true]]) 2).2 :=
  ⟨⟨by decide, by decide⟩,
    claim_C5 2 [[true, false]] [false, true] (by decide) (by decide)⟩

/-- Claim C6 witness: the two rank computations agree on a 2-row, 2-column
instance. -/
theorem claim_C6_witness :
    (∀ row ∈ ([[true, false], [false, true]] : List Row), row.length = 2) ∧
    ((check_linear_independence [[true, false], [false, true]] 2).2
        ≤ (solveElim 2 [[true, false], [false, true]]).2.1 ∧
      (2 ≤ ([[true, false], [false, true]] : List Row).length →
        (check_linear_independence [[true, false], [false, true]] 2).2
          = (solveElim 2 [[true, false], [false, true]]).2.1)) :=
  ⟨by decide, claim_C6 2 [[true, false], [false, true]] (by decide)⟩

/-! ### The Simon function construction -/

theorem repCount_succ (s t : Nat) :
    repCount s (t + 1) = repCount s t + (if t ≤ t ^^^ s then 1 else 0) := by
  unfold repCount
  rw [List.range_succ, List.filter_append, List.length_append]
  by_cases h : t ≤ t ^^^ s <;> simp [h]

theorem repCount_mono (s : Nat) : ∀ a b : Nat, a ≤ b → repCount s a ≤ repCount s b := by
  intro a b
  induction b with
  | zero =>
    intro h
    have ha : a = 0 := by omega
    rw [ha]
  | succ b ihb =>
    intro h
    rcases Nat.eq_or_lt_of_le h with heq | hlt
    · rw [heq]
    · have h1 := ihb (by omega)
      rw [repCount_succ]
      split <;> omega

theorem repCount_lt (s a b : Nat) (hab : a < b) (ha : a ≤ a ^^^ s) :
    repCount s a < repCount s b := by
  have h1 : repCount s (a + 1) = repCount s a + 1 := by
    rw [repCount_succ, if_pos ha]
  have h2 := repCount_mono s (a + 1) b hab
  omega

theorem repCount_inj (s a b : Nat) (ha : a ≤ a ^^^ s) (hb : b ≤ b ^^^ s)
    (h : repCount s a = repCount s b) : a = b := by
  rcases Nat.lt_trichotomy a b with hlt | heq | hgt
  · exact absurd h (Nat.ne_of_lt (repCount_lt s a b hlt ha))
  · exact heq
  · exact absurd h.symm (Nat.ne_of_lt (repCount_lt s b a hgt hb))

theorem min_pair_rep (z s : Nat) : min z (z ^^^ s) ≤ (min z (z ^^^ s)) ^^^ s := by
  rcases Nat.le_total z (z ^^^ s) with h | h
  · rw [Nat.min_eq_left h]
    exact h
  · rw [Nat.min_eq_right h, show (z ^^^ s) ^^^ s = z from Nat.xor_cancel_right s z]
    exact h

theorem eq_of_min_pair (x y s : Nat)
    (h : min x (x ^^^ s) = min y (y ^^^ s)) : y = x ∨ y = x ^^^ s := by
  rcases Nat.le_total x (x ^^^ s) with hx | hx <;>
    rcases Nat.le_total y (y ^^^ s) with hy | hy
  · rw [Nat.min_eq_left hx, Nat.min_eq_left hy] at h
    exact Or.inl h.symm
  · rw [Nat.min_eq_left hx, Nat.min_eq_right hy] at h
    right
    rw [h, Nat.xor_cancel_right]
  · rw [Nat.min_eq_right hx, Nat.min_eq_left hy] at h
    exact Or.inr h.symm
  · rw [Nat.min_eq_right hx, Nat.min_eq_right hy] at h
    left
    have h2 := congrArg (fun w => w ^^^ s) h
    simpa [Nat.xor_cancel_right] using h2.symm

/-- A non-representative never acquires min-value `t`: if the pair minimum
of `z` equals `t` then `z` is `t` or its partner. -/
theorem min_pair_cases (z s t : Nat) (h : min z (z ^^^ s) = t) :
    z = t ∨ z ^^^ s = t := by
  rcases Nat.le_total z (z ^^^ s) with hz | hz
  · rw [Nat.min_eq_left hz] at h
    exact Or.inl h
  · rw [Nat.min_eq_right hz] at h
    exact Or.inr h

theorem simonLoop_inv (n s : Nat) (hs : s < 2 ^ n) :
    ∀ t, t ≤ 2 ^ n →
      (simonLoop n s t).seen.length = 2 ^ n ∧
      (∀ z, z < 2 ^ n → (simonLoop n s t).seen.getD z false
          = decide (min z (z ^^^ s) < t)) ∧
      (∀ z, (simonLoop n s t).mapping.lookup z
          = if z < 2 ^ n ∧ min z (z ^^^ s) < t
            then some (repCount s (min z (z ^^^ s))) else none) ∧
      (simonLoop n s t).next_output = repCount s t := by
  intro t
  induction t with
  | zero =>
    intro _
    refine ⟨by simp [simonLoop], ?_, ?_, by simp [simonLoop, repCount]⟩
    · intro z hz
      simp [simonLoop, getD_replicate_self]
    · intro z
      simp [simonLoop, List.lookup]
  | succ t ih =>
    intro ht
    obtain ⟨hlen, hseen, hmap, hnext⟩ := ih (by omega)
    have hstep : simonLoop n s (t + 1) = simonStep s (simonLoop n s t) t := by
      unfold simonLoop
      rw [List.range_succ, List.foldl_append]
      simp
    have htN : t < 2 ^ n := by omega
    have hxorN : t ^^^ s < 2 ^ n := Nat.xor_lt_two_pow htN hs
    set st := simonLoop n s t with hst
    rw [hstep]
    by_cases hseent : st.seen.getD t false = true
    · -- already seen: the partner was processed earlier, the step is a no-op
      have hmin : min t (t ^^^ s) < t := by
        have h2 := hseen t htN
        rw [hseent] at h2
        exact of_decide_eq_true h2.symm
      have hts : t ^^^ s < t := by
        by_cases hle : t ≤ t ^^^ s
        · rw [Nat.min_eq_left hle] at hmin
          omega
        · omega
      have hnorep : ¬ (t ≤ t ^^^ s) := by omega
      have hne : ∀ z, min z (z ^^^ s) ≠ t := by
        intro z heq
        rcases min_pair_cases z s t heq with h | h
        · subst h
          omega
        · have hzval : z = t ^^^ s := by
            have h2 := congrArg (fun w => w ^^^ s) h
            simpa [Nat.xor_cancel_right] using h2
          subst hzval
          rw [show (t ^^^ s) ^^^ s = t from Nat.xor_cancel_right s t] at heq
          rw [Nat.min_eq_left (by omega)] at heq
          omega
      have hid : simonStep s st t = st := by
        unfold simonStep
        rw [hseent]
        simp
      rw [hid]
      have hrepC : repCount s (t + 1) = repCount s t := by
        rw [repCount_succ, if_neg hnorep]
        omega
      refine ⟨hlen, ?_, ?_, by rw [hnext, hrepC]⟩
      · intro z hz
        rw [hseen z hz]
        have := hne z
        exact decide_eq_decide.mpr (by omega)
      · intro z
        rw [hmap z]
        have := hne z
        by_cases hz : z < 2 ^ n
        · have hiff : (z < 2 ^ n ∧ min z (z ^^^ s) < t)
              ↔ (z < 2 ^ n ∧ min z (z ^^^ s) < t + 1) := by
            constructor
            · rintro ⟨h1, h2⟩
              exact ⟨h1, by omega⟩
            · rintro ⟨h1, h2⟩
              exact ⟨h1, by omega⟩
          rw [if_congr hiff rfl rfl]
        · rw [if_neg (fun hc => hz hc.1), if_neg (fun hc => hz hc.1)]
    · -- unseen: t is the minimum of its pair
      have hseenf : st.seen.getD t false = false := by
        cases h : st.seen.getD t false
        · rfl
        · exact absurd h hseent
      have hmin_ge : ¬ (min t (t ^^^ s) < t) := by
        intro hlt
        have h2 := hseen t htN
        rw [hseenf, decide_eq_true hlt] at h2
        exact Bool.noConfusion h2
      have htle : t ≤ t ^^^ s := by
        by_cases h : t ≤ t ^^^ s
        · exact h
        · exfalso
          apply hmin_ge
          rw [Nat.min_eq_right (by omega)]
          omega
      have hmint : min t (t ^^^ s) = t := Nat.min_eq_left htle
      have hrepC : repCount s (t + 1) = repCount s t + 1 := by
        rw [repCount_succ, if_pos htle]
      have hne : ∀ z, z ≠ t → z ≠ t ^^^ s → min z (z ^^^ s) ≠ t := by
        intro z hzt hzy heq
        rcases min_pair_cases z s t heq with h | h
        · exact hzt h
        · apply hzy
          have := congrArg (fun w => w ^^^ s) h
          simpa [Nat.xor_cancel_right] using this
      by_cases hyx : t ^^^ s = t
      · -- singleton pair (x ^ s = x)
        have hstep2 : simonStep s st t =
            { seen := st.seen.set t true
              mapping := st.mapping ++ [(t, st.next_output)]
              next_output := st.next_output + 1 } := by
          unfold simonStep
          rw [hseenf]
          simp [hyx]
        rw [hstep2]
        refine ⟨by simpa using hlen, ?_, ?_, by simp [hnext, hrepC]⟩
        · intro z hz
          by_cases hzt : z = t
          · subst hzt
            rw [getD_set_self _ _ _ _ (by omega)]
            rw [hmint]
            simp
          · rw [getD_set_ne _ _ _ _ _ (fun h => hzt h.symm), hseen z hz]
            have := hne z hzt (by rw [hyx]; exact hzt)
            exact decide_eq_decide.mpr (by omega)
        · intro z
          rw [List.lookup_append, hmap z]
          by_cases hzt : z = t
          · subst hzt
            rw [if_neg (fun hc => hmin_ge hc.2)]
            have hl : List.lookup z [(z, st.next_output)] = some st.next_output := by
              simp [List.lookup]
            rw [hl, hnext, if_pos ⟨htN, by rw [hmint]; omega⟩, hmint]
            rfl
          · have hbeq : (z == t) = false := beq_eq_false_iff_ne.mpr hzt
            have hl : List.lookup z [(t, st.next_output)] = none := by
              simp [List.lookup, hbeq]
            rw [hl]
            have := hne z hzt (by rw [hyx]; exact hzt)
            by_cases hz : z < 2 ^ n
            · have hiff : (z < 2 ^ n ∧ min z (z ^^^ s) < t)
                  ↔ (z < 2 ^ n ∧ min z (z ^^^ s) < t + 1) := by
                constructor
                · rintro ⟨h1, h2⟩
                  exact ⟨h1, by omega⟩
                · rintro ⟨h1, h2⟩
                  exact ⟨h1, by omega⟩
              rw [if_congr hiff rfl rfl]
              cases hc : (if (z < 2 ^ n ∧ min z (z ^^^ s) < t + 1)
                then some (repCount s (min z (z ^^^ s))) else none) <;> rfl
            · rw [if_neg (fun hc => hz hc.1), if_neg (fun hc => hz hc.1)]
              rfl
      · -- genuine pair
        have hty : t < t ^^^ s := by omega
        have hstep2 : simonStep s st t =
            { seen := (st.seen.set t true).set (t ^^^ s) true
              mapping := st.mapping ++ [(t, st.next_output), (t ^^^ s, st.next_output)]
              next_output := st.next_output + 1 } := by
          unfold simonStep
          rw [hseenf]
          simp [hyx]
        rw [hstep2]
        have hmin_y : min (t ^^^ s) ((t ^^^ s) ^^^ s) = t := by
          rw [show (t ^^^ s) ^^^ s = t from Nat.xor_cancel_right s t]
          exact Nat.min_eq_right htle
        refine ⟨by simpa using hlen, ?_, ?_, by simp [hnext, hrepC]⟩
        · intro z hz
          by_cases hzy : z = t ^^^ s
          · subst hzy
            rw [getD_set_self _ _ _ _ (by rw [List.length_set]; omega)]
            rw [hmin_y]
            simp
          · rw [getD_set_ne _ _ _ _ _ (fun h => hzy h.symm)]
            by_cases hzt : z = t
            · subst hzt
              rw [getD_set_self _ _ _ _ (by omega)]
              rw [hmint]
              simp
            · rw [getD_set_ne _ _ _ _ _ (fun h => hzt h.symm), hseen z hz]
              have := hne z hzt hzy
              exact decide_eq_decide.mpr (by omega)
        · intro z
          rw [List.lookup_append, hmap z]
          by_cases hzt : z = t
          · subst hzt
            rw [if_neg (fun hc => hmin_ge hc.2)]
            have hl : List.lookup z [(z, st.next_output),
                (z ^^^ s, st.next_output)] = some st.next_output := by
              simp [List.lookup]
            rw [hl, hnext, if_pos ⟨htN, by rw [hmint]; omega⟩, hmint]
            rfl
          · by_cases hzy : z = t ^^^ s
            · have hcond1 : ¬ (z < 2 ^ n ∧ min z (z ^^^ s) < t) := by
                rintro ⟨-, hc⟩
                rw [hzy, hmin_y] at hc
                omega
              rw [if_neg hcond1]
              have hbeq1 : (z == t) = false := beq_eq_false_iff_ne.mpr (by
                rw [hzy]
                exact hyx)
              have hbeq2 : (z == t ^^^ s) = true := by
                rw [hzy]
                simp
              have hl : List.lookup z [(t, st.next_output), (t ^^^ s, st.next_output)]
                  = some st.next_output := by
                simp [List.lookup, hbeq1, hbeq2]
              rw [hl, hnext]
              have hcond2 : (z < 2 ^ n ∧ min z (z ^^^ s) < t + 1) := by
                constructor
                · rw [hzy]
                  exact hxorN
                · rw [hzy, hmin_y]
                  omega
              rw [if_pos hcond2, hzy, hmin_y]
              rfl
            · have hbeq1 : (z == t) = false := beq_eq_false_iff_ne.mpr hzt
              have hbeq2 : (z == t ^^^ s) = false := beq_eq_false_iff_ne.mpr hzy
              have hl : List.lookup z [(t, st.next_output),
                  (t ^^^ s, st.next_output)] = none := by
                simp [List.lookup, hbeq1, hbeq2]
              rw [hl]
              have := hne z hzt hzy
              by_cases hz : z < 2 ^ n
              · have hiff : (z < 2 ^ n ∧ min z (z ^^^ s) < t)
                    ↔ (z < 2 ^ n ∧ min z (z ^^^ s) < t + 1) := by
                  constructor
                  · rintro ⟨h1, h2⟩
                    exact ⟨h1, by omega⟩
                  · rintro ⟨h1, h2⟩
                    exact ⟨h1, by omega⟩
                rw [if_congr hiff rfl rfl]
                cases hc : (if (z < 2 ^ n ∧ min z (z ^^^ s) < t + 1)
                  then some (repCount s (min z (z ^^^ s))) else none) <;> rfl
              · rw [if_neg (fun hc => hz hc.1), if_neg (fun hc => hz hc.1)]
                rfl

theorem build_simon_lookup (n s : Nat) (hs : s < 2 ^ n) (z : Nat) (hz : z < 2 ^ n) :
    (build_simon_function n s).lookup z
      = some (repCount s (min z (z ^^^ s))) := by
  have h := (simonLoop_inv n s hs (2 ^ n) (Nat.le_refl _)).2.2.1 z
  have hb : build_simon_function n s = (simonLoop n s (2 ^ n)).mapping := rfl
  rw [hb, h, if_pos ⟨hz, by have := Nat.min_le_left z (z ^^^ s); omega⟩]

/-- Claim C10: for every n >= 1 and hidden value s_int < 2^n,
`build_simon_function` produces a mapping defined on all 2^n inputs with
mapping[x] = mapping[x xor s_int] for every x; it identifies at most the
two elements of each xor-pair (exactly two-to-one when s_int is non-zero),
and it is injective when s_int = 0. -/
theorem claim_C10 (n s_int : Nat) (_hn : 1 ≤ n) (hs : s_int < 2 ^ n) :
    (∀ x, x < 2 ^ n → ∃ v, (build_simon_function n s_int).lookup x = some v) ∧
    (∀ x, x < 2 ^ n → (build_simon_function n s_int).lookup x
        = (build_simon_function n s_int).lookup (x ^^^ s_int)) ∧
    (∀ x y, x < 2 ^ n → y < 2 ^ n →
      (build_simon_function n s_int).lookup x
        = (build_simon_function n s_int).lookup y →
      y = x ∨ y = x ^^^ s_int) ∧
    (s_int = 0 → ∀ x y, x < 2 ^ n → y < 2 ^ n →
      (build_simon_function n s_int).lookup x
        = (build_simon_function n s_int).lookup y → y = x) := by
  have hlook := build_simon_lookup n s_int hs
  have hmain : ∀ x y, x < 2 ^ n → y < 2 ^ n →
      (build_simon_function n s_int).lookup x
        = (build_simon_function n s_int).lookup y →
      y = x ∨ y = x ^^^ s_int := by
    intro x y hx hy h
    rw [hlook x hx, hlook y hy] at h
    have h2 := Option.some.inj h
    have h3 := repCount_inj s_int _ _ (min_pair_rep x s_int) (min_pair_rep y s_int) h2
    exact eq_of_min_pair x y s_int h3
  refine ⟨?_, ?_, hmain, ?_⟩
  · intro x hx
    exact ⟨_, hlook x hx⟩
  · intro x hx
    have hx2 : x ^^^ s_int < 2 ^ n := Nat.xor_lt_two_pow hx hs
    rw [hlook x hx, hlook _ hx2]
    rw [show (x ^^^ s_int) ^^^ s_int = x from Nat.xor_cancel_right s_int x,
      Nat.min_comm]
  · intro hs0 x y hx hy h
    rcases hmain x y hx hy h with h4 | h4
    · exact h4
    · rw [h4, hs0, Nat.xor_zero]

/-- Claim C10 witness: the construction at n = 2, s = 1 (and checking the
four conjuncts hold at that instance). -/
theorem claim_C10_witness :
    (1 ≤ 2 ∧ 1 < 2 ^ 2) ∧
    ((∀ x, x < 2 ^ 2 → ∃ v, (build_simon_function 2 1).lookup x = some v) ∧
     (∀ x, x < 2 ^ 2 → (build_simon_function 2 1).lookup x
         = (build_simon_function 2 1).lookup (x ^^^ 1)) ∧
     (∀ x y, x < 2 ^ 2 → y < 2 ^ 2 →
       (build_simon_function 2 1).lookup x = (build_simon_function 2 1).lookup y →
       y = x ∨ y = x ^^^ 1) ∧
     ((1 : Nat) = 0 → ∀ x y, x < 2 ^ 2 → y < 2 ^ 2 →
       (build_simon_function 2 1).lookup x = (build_simon_function 2 1).lookup y →
       y = x)) :=
  ⟨⟨by decide, by decide⟩, claim_C10 2 1 (by decide) (by decide)⟩
